import Mathlib

/-!
# Verification of the unipept-index sparse suffix-array search engine

A shallow embedding of the core of the `unipept-index` repository
(bit-packed containers, the on-disk suffix-array container format, the
k-mer bounds caches, and the I≡L-aware binary-search engine of
`sa-index/src/sa_searcher.rs`), together with theorems settling the
frozen claims about it.

Modelling conventions:
* Bytes and `u64` words are `Nat`, with `% 2 ^ 64` inserted exactly where
  Rust's wrapping behaviour matters; `u64` shifts use release semantics
  (the shift amount is masked to the bit width).
* The protein text (`text_compression::ProteinText`) is modelled as the
  list of its characters; `ProteinText::get` through the 5-bit
  code tables is the identity on stored characters, so `tGet` is plain
  list indexing (Rust's panicking out-of-range indexing is replaced by a
  default value, and every theorem stays inside the in-range domain).
* Rust `while` loops whose variant is not structural are modelled as
  fuel-indexed recursions; the callers pass a fuel that is proved (and,
  for concrete inputs, computed) to dominate the loop's variant, so the
  fueled function agrees with the loop.
-/

set_option autoImplicit false

namespace UnipeptIndex

/-! ## Characters and basic predicates

Character constants from `sa_mappings::proteins` and the amino-acid
alphabet of `text-compression/src/lib.rs` (`"ACDEFGHIKLMNPQRSTVWY-$"`). -/

/-- `'-'`, `sa_mappings::proteins::SEPARATION_CHARACTER`. -/
def SEPARATION_CHARACTER : Nat := 45

/-- `'$'`, `sa_mappings::proteins::TERMINATION_CHARACTER`. -/
def TERMINATION_CHARACTER : Nat := 36

/-- `b'I'`. -/
def charI : Nat := 73

/-- `b'L'`. -/
def charL : Nat := 76

/-- `b'K'`. -/
def charK : Nat := 75

/-- `b'R'`. -/
def charR : Nat := 82

/-- `b'P'`. -/
def charP : Nat := 80

/-- The canonical 20 amino acids `ACDEFGHIKLMNPQRSTVWY`, as bytes. -/
def canonicalAminoAcids : List Nat :=
  [65, 67, 68, 69, 70, 71, 72, 73, 75, 76, 77, 78, 80, 81, 82, 83, 84, 86, 87, 89]

/-- A byte is a canonical amino acid. -/
def isCanonAA (c : Nat) : Prop := c ∈ canonicalAminoAcids

instance (c : Nat) : Decidable (isCanonAA c) := by unfold isCanonAA; infer_instance

/-- The I↔L-tolerant character match used throughout `Searcher::compare` and
`ProteinTextSlice::equals_slice`: equal, or the pair {I, L}. -/
def ilMatch (a b : Nat) : Bool :=
  a == b || (a == charL && b == charI) || (a == charI && b == charL)

/-- L→I normalisation: in the index every `L` was replaced by an `I`
(`sa_searcher.rs`, `compare`, lines 196–206). -/
def normIL (c : Nat) : Nat := if c = charL then charI else c

theorem ilMatch_iff_normIL_eq (a b : Nat) : ilMatch a b = true ↔ normIL a = normIL b := by
  unfold ilMatch normIL charI charL
  rcases eq_or_ne a 76 with ha | ha <;> rcases eq_or_ne b 76 with hb | hb <;>
    simp [ha, hb] <;> omega

theorem normIL_eq_term_iff (c : Nat) : normIL c = TERMINATION_CHARACTER ↔ c = TERMINATION_CHARACTER := by
  unfold normIL charI charL TERMINATION_CHARACTER
  split <;> omega

theorem isCanonAA_ne_term {c : Nat} (h : isCanonAA c) : c ≠ TERMINATION_CHARACTER := by
  revert h; unfold isCanonAA canonicalAminoAcids TERMINATION_CHARACTER
  intro h; fin_cases h <;> omega

/-! ## Lexicographic order on byte strings and common prefix lengths

Specification vocabulary: the I≡L suffix order of the index is the
lexicographic order on L→I-normalised suffixes.  `cpl` is the length of
the longest common prefix of two strings. -/

/-- Strict lexicographic order on byte strings (a proper prefix is smaller). -/
def lexLtb : List Nat → List Nat → Bool
  | [], [] => false
  | [], _ :: _ => true
  | _ :: _, [] => false
  | a :: as, b :: bs => decide (a < b) || (a == b && lexLtb as bs)

/-- Length of the longest common prefix of two byte strings. -/
def cpl : List Nat → List Nat → Nat
  | a :: as, b :: bs => if a = b then cpl as bs + 1 else 0
  | _, _ => 0

/-- `w` is a prefix of `a`. -/
def IsPref (w a : List Nat) : Prop := cpl w a = w.length

theorem cpl_le_left : ∀ a b : List Nat, cpl a b ≤ a.length := by
  intro a
  induction a with
  | nil => intro b; cases b <;> simp [cpl]
  | cons x as ih =>
    intro b; cases b with
    | nil => simp [cpl]
    | cons y bs =>
      simp only [cpl]
      split
      · simpa using ih bs
      · simp

theorem cpl_comm : ∀ a b : List Nat, cpl a b = cpl b a := by
  intro a
  induction a with
  | nil => intro b; cases b <;> simp [cpl]
  | cons x as ih =>
    intro b; cases b with
    | nil => simp [cpl]
    | cons y bs =>
      simp only [cpl]
      rcases eq_or_ne x y with h | h
      · simp [h, ih bs]
      · simp [h, Ne.symm h]

theorem cpl_le_right (a b : List Nat) : cpl a b ≤ b.length := by
  rw [cpl_comm]; exact cpl_le_left b a

theorem getD_eq_of_lt_cpl :
    ∀ (a b : List Nat) (k : Nat), k < cpl a b → a.getD k 0 = b.getD k 0 := by
  intro a
  induction a with
  | nil => intro b k h; cases b <;> simp [cpl] at h
  | cons x as ih =>
    intro b k h
    cases b with
    | nil => simp [cpl] at h
    | cons y bs =>
      simp only [cpl] at h
      split at h
      · next hxy =>
        cases k with
        | zero => simpa using hxy
        | succ k => simpa using ih bs k (by omega)
      · omega

theorem cpl_mismatch :
    ∀ (a b : List Nat), cpl a b < a.length → cpl a b < b.length →
      a.getD (cpl a b) 0 ≠ b.getD (cpl a b) 0 := by
  intro a
  induction a with
  | nil => intro b h _; simp at h
  | cons x as ih =>
    intro b ha hb
    cases b with
    | nil => simp at hb
    | cons y bs =>
      simp only [cpl] at ha hb ⊢
      split at ha
      · next hxy =>
        simp only [if_pos hxy, List.getD_cons_succ]
        exact ih bs (by simpa using ha) (by simp only [if_pos hxy] at hb; simpa using hb)
      · next hxy => simpa [hxy]

theorem le_cpl_of_agree :
    ∀ (a b : List Nat) (n : Nat), n ≤ a.length → n ≤ b.length →
      (∀ k, k < n → a.getD k 0 = b.getD k 0) → n ≤ cpl a b := by
  intro a
  induction a with
  | nil =>
    intro b n h _ _
    have hn : n = 0 := by simpa using h
    subst hn; exact Nat.zero_le _
  | cons x as ih =>
    intro b n ha hb hag
    cases b with
    | nil => simp at hb; omega
    | cons y bs =>
      cases n with
      | zero => exact Nat.zero_le _
      | succ n =>
        have hxy : x = y := by simpa using hag 0 (by omega)
        simp only [cpl, if_pos hxy]
        have := ih bs n (by simpa using ha) (by simpa using hb)
          (fun k hk => by simpa using hag (k + 1) (by omega))
        omega

theorem cpl_drop :
    ∀ (skip : Nat) (a b : List Nat), skip ≤ cpl a b →
      cpl a b = skip + cpl (a.drop skip) (b.drop skip) := by
  intro skip
  induction skip with
  | zero => intro a b _; simp
  | succ skip ih =>
    intro a b h
    cases a with
    | nil => cases b <;> simp [cpl] at h
    | cons x as =>
      cases b with
      | nil => simp [cpl] at h
      | cons y bs =>
        simp only [cpl] at h ⊢
        split at h
        · next hxy =>
          simp only [if_pos hxy, List.drop_succ_cons]
          have := ih as bs (by omega)
          omega
        · omega

theorem isPref_iff (w a : List Nat) :
    IsPref w a ↔ w.length ≤ a.length ∧ ∀ k, k < w.length → w.getD k 0 = a.getD k 0 := by
  constructor
  · intro h
    refine ⟨?_, fun k hk => getD_eq_of_lt_cpl w a k (by rw [h]; exact hk)⟩
    have := cpl_le_right w a
    rw [h] at this; exact this
  · intro ⟨hl, hag⟩
    have h1 := le_cpl_of_agree w a w.length le_rfl hl hag
    have h2 := cpl_le_left w a
    exact Nat.le_antisymm h2 h1

theorem lexLtb_trans :
    ∀ a b c : List Nat, lexLtb a b = true → lexLtb b c = true → lexLtb a c = true := by
  intro a
  induction a with
  | nil =>
    intro b c hab hbc
    cases b with
    | nil => simp [lexLtb] at hab
    | cons y bs =>
      cases c with
      | nil => simp [lexLtb] at hbc
      | cons z cs => simp [lexLtb]
  | cons x as ih =>
    intro b c hab hbc
    cases b with
    | nil => simp [lexLtb] at hab
    | cons y bs =>
      cases c with
      | nil => simp [lexLtb] at hbc
      | cons z cs =>
        simp only [lexLtb, Bool.or_eq_true, decide_eq_true_eq, Bool.and_eq_true,
          beq_iff_eq] at hab hbc ⊢
        rcases hab with h1 | ⟨h1, h1'⟩ <;> rcases hbc with h2 | ⟨h2, h2'⟩
        · exact Or.inl (by omega)
        · exact Or.inl (by omega)
        · exact Or.inl (by omega)
        · exact Or.inr ⟨by omega, ih bs cs h1' h2'⟩

theorem lexLtb_trichotomy :
    ∀ a b : List Nat, lexLtb a b = true ∨ a = b ∨ lexLtb b a = true := by
  intro a
  induction a with
  | nil => intro b; cases b <;> simp [lexLtb]
  | cons x as ih =>
    intro b
    cases b with
    | nil => simp [lexLtb]
    | cons y bs =>
      rcases Nat.lt_trichotomy x y with h | h | h
      · exact Or.inl (by simp [lexLtb]; omega)
      · rcases ih bs with h' | h' | h'
        · exact Or.inl (by simp [lexLtb, h, h'])
        · exact Or.inr (Or.inl (by rw [h, h']))
        · exact Or.inr (Or.inr (by simp [lexLtb, h, h']))
      · exact Or.inr (Or.inr (by simp [lexLtb]; omega))

theorem lexLtb_irrefl : ∀ a : List Nat, lexLtb a a = false := by
  intro a
  induction a with
  | nil => simp [lexLtb]
  | cons x as ih => simp [lexLtb, ih]

/-- Characterisation of the strict lexicographic order by the common
prefix length: either a proper-prefix situation or a strict mismatch. -/
theorem lexLtb_iff_cpl (a b : List Nat) :
    lexLtb a b = true ↔
      (cpl a b = a.length ∧ a.length < b.length) ∨
      (cpl a b < a.length ∧ cpl a b < b.length ∧ a.getD (cpl a b) 0 < b.getD (cpl a b) 0) := by
  induction a generalizing b with
  | nil =>
    cases b with
    | nil => simp [lexLtb, cpl]
    | cons y bs => simp [lexLtb, cpl]
  | cons x as ih =>
    cases b with
    | nil => simp [lexLtb, cpl]
    | cons y bs =>
      rcases eq_or_ne x y with hxy | hxy
      · subst hxy
        have hc : cpl (x :: as) (x :: bs) = cpl as bs + 1 := by simp [cpl]
        simp only [lexLtb, Bool.or_eq_true, decide_eq_true_eq, Bool.and_eq_true, beq_iff_eq,
          hc, List.length_cons, List.getD_cons_succ, lt_irrefl, false_or, true_and]
        rw [ih bs]
        constructor
        · rintro (⟨h1, h2⟩ | ⟨h1, h2, h3⟩)
          · exact Or.inl ⟨by omega, by omega⟩
          · exact Or.inr ⟨by omega, by omega, h3⟩
        · rintro (⟨h1, h2⟩ | ⟨h1, h2, h3⟩)
          · exact Or.inl ⟨by omega, by omega⟩
          · exact Or.inr ⟨by omega, by omega, h3⟩
      · have hcpl : cpl (x :: as) (y :: bs) = 0 := by simp [cpl, hxy]
        simp only [lexLtb, Bool.or_eq_true, decide_eq_true_eq, Bool.and_eq_true, beq_iff_eq,
          hcpl]
        constructor
        · intro h
          rcases h with h | ⟨h, _⟩
          · exact Or.inr ⟨by simp, by simp, by simpa using h⟩
          · exact absurd h hxy
        · rintro (⟨h1, _⟩ | ⟨_, _, h3⟩)
          · simp at h1
          · exact Or.inl (by simpa using h3)

/-- A string is never lexicographically smaller than its own prefix. -/
theorem not_lexLtb_of_isPref {w a : List Nat} (h : IsPref w a) : lexLtb a w = false := by
  by_contra hc
  have hc' : lexLtb a w = true := by
    cases hlt : lexLtb a w
    · exact absurd hlt hc
    · rfl
  rw [lexLtb_iff_cpl] at hc'
  unfold IsPref at h
  have hcomm : cpl a w = cpl w a := cpl_comm a w
  have hle := cpl_le_right w a
  rcases hc' with ⟨h1, h2⟩ | ⟨h1, h2, h3⟩
  · omega
  · rw [hcomm, h] at h3
    have := getD_eq_of_lt_cpl w a (cpl w a) (by omega)
    omega

/-- If `x < w` and `w` is a prefix of `y`, then `x < y`. -/
theorem lexLtb_of_lt_pref {x w y : List Nat} (hx : lexLtb x w = true) (hp : IsPref w y) :
    lexLtb x y = true := by
  rw [lexLtb_iff_cpl] at hx ⊢
  rw [isPref_iff] at hp
  obtain ⟨hlen, hag⟩ := hp
  rcases hx with ⟨h1, h2⟩ | ⟨h1, h2, h3⟩
  · -- x is a proper prefix of w, hence of y, and shorter than y
    have hxc : x.length ≤ cpl x y := by
      refine le_cpl_of_agree x y x.length le_rfl (by omega) (fun k hk => ?_)
      rw [getD_eq_of_lt_cpl x w k (by omega), hag k (by omega)]
    have := cpl_le_left x y
    exact Or.inl ⟨by omega, by omega⟩
  · -- mismatch inside w transfers to y
    have hcy : cpl x y = cpl x w := by
      have hge : cpl x w ≤ cpl x y := by
        refine le_cpl_of_agree x y (cpl x w) (cpl_le_left x w) (by omega) (fun k hk => ?_)
        rw [getD_eq_of_lt_cpl x w k hk, hag k (by omega)]
      rcases Nat.lt_or_ge (cpl x w) (cpl x y) with hlt | hge'
      · exfalso
        have h4 := getD_eq_of_lt_cpl x y (cpl x w) hlt
        rw [← hag (cpl x w) (by omega)] at h4
        omega
      · omega
    rw [hcy]
    refine Or.inr ⟨h1, by omega, ?_⟩
    rw [← hag (cpl x w) (by omega)]
    exact h3

/-- If `w < a` strictly without being a prefix of `a`, then any extension
of `w` is still `< a`. -/
theorem lexLtb_pref_of_lt_not_pref {w a b : List Nat}
    (hlt : lexLtb w a = true) (hnp : ¬ IsPref w a) (hp : IsPref w b) :
    lexLtb b a = true := by
  rw [lexLtb_iff_cpl] at hlt ⊢
  rw [isPref_iff] at hp
  obtain ⟨hlen, hag⟩ := hp
  rcases hlt with ⟨h1, h2⟩ | ⟨h1, h2, h3⟩
  · exact absurd (by unfold IsPref; omega) hnp
  · have hcb : cpl b a = cpl w a := by
      have hge : cpl w a ≤ cpl b a := by
        refine le_cpl_of_agree b a (cpl w a) (by omega) (by omega) (fun k hk => ?_)
        rw [← hag k (by omega)]
        exact getD_eq_of_lt_cpl w a k hk
      rcases Nat.lt_or_ge (cpl w a) (cpl b a) with hlt' | hge'
      · exfalso
        have h4 := getD_eq_of_lt_cpl b a (cpl w a) hlt'
        rw [← hag (cpl w a) (by omega)] at h4
        omega
      · omega
    rw [hcb]
    refine Or.inr ⟨by omega, h2, ?_⟩
    rw [hag (cpl w a) (by omega)] at h3
    exact h3

/-- Binary-search skip transfer: a common prefix of the two window
boundaries is a prefix of everything lexicographically between them. -/
theorem isPref_between {w a b c : List Nat}
    (ha : IsPref w a) (hc : IsPref w c)
    (hab : lexLtb b a = false) (hbc : lexLtb c b = false) : IsPref w b := by
  induction w generalizing a b c with
  | nil => unfold IsPref; cases b <;> simp [cpl]
  | cons x w' ih =>
    cases a with
    | nil => simp [IsPref, cpl] at ha
    | cons ya as =>
      cases c with
      | nil => simp [IsPref, cpl] at hc
      | cons yc cs =>
        have hya : ya = x := by
          by_contra hne
          simp [IsPref, cpl, Ne.symm hne] at ha
        have hyc : yc = x := by
          by_contra hne
          simp [IsPref, cpl, Ne.symm hne] at hc
        rw [hya] at ha hab
        rw [hyc] at hc hbc
        cases b with
        | nil => simp [lexLtb] at hab
        | cons yb bs =>
          have hyb : yb = x := by
            rcases Nat.lt_trichotomy yb x with h | h | h
            · exfalso
              have : lexLtb (yb :: bs) (x :: as) = true := by
                simp [lexLtb]; omega
              rw [hab] at this; exact Bool.false_ne_true this
            · exact h
            · exfalso
              have : lexLtb (x :: cs) (yb :: bs) = true := by
                simp [lexLtb]; omega
              rw [hbc] at this; exact Bool.false_ne_true this
          rw [hyb] at hab hbc ⊢
          have ha' : IsPref w' as := by
            simpa [IsPref, cpl] using ha
          have hc' : IsPref w' cs := by
            simpa [IsPref, cpl] using hc
          have hab' : lexLtb bs as = false := by
            by_contra hne
            have : lexLtb bs as = true := by
              cases h : lexLtb bs as
              · exact absurd h hne
              · rfl
            have h2 : lexLtb (x :: bs) (x :: as) = true := by simp [lexLtb, this]
            rw [hab] at h2; exact Bool.false_ne_true h2
          have hbc' : lexLtb cs bs = false := by
            by_contra hne
            have : lexLtb cs bs = true := by
              cases h : lexLtb cs bs
              · exact absurd h hne
              · rfl
            have h2 : lexLtb (x :: cs) (x :: bs) = true := by simp [lexLtb, this]
            rw [hbc] at h2; exact Bool.false_ne_true h2
          have := ih ha' hc' hab' hbc'
          simpa [IsPref, cpl] using this

/-! ## The searcher model (`sa-index/src/sa_searcher.rs`)

`ProteinText` stores characters through a 5-bit code table
(`text-compression/src/lib.rs`); `get` decodes exactly the stored
character, so the text is modelled as the list of its characters and
`ProteinText::get` as list indexing. -/

/-- `ProteinText::get` (out-of-range indexing, which panics in Rust,
yields the default `0`, a byte outside every alphabet involved). -/
def tGet (t : List Nat) (i : Nat) : Nat := t.getD i 0

/-- The state of `Searcher` used by the search functions: the suffix
array (`SuffixArray::Original`/`Compressed` values with its sample rate —
`sa.get` widens stored values to `i64`, here `Nat` since all stored
values are text positions) and the protein text. -/
structure Searcher where
  saVals : List Nat
  sampleRate : Nat
  text : List Nat

/-- `self.sa.get(index)` (panicking indexing modelled with default `0`;
all verified accesses are in range). -/
def saGet (s : Searcher) (i : Nat) : Nat := s.saVals.getD i 0

/-- `BoundSearch` from `sa_searcher.rs`. -/
inductive BoundSearch
  | Minimum
  | Maximum
deriving DecidableEq

/-- `bound == Minimum` as a Boolean (two-valued enum). -/
def BoundSearch.isMin : BoundSearch → Bool
  | .Minimum => true
  | .Maximum => false

/-- `BoundSearchResult` from `sa_searcher.rs`. -/
inductive BoundSearchResult
  | NoMatches
  | SearchResult : Nat × Nat → BoundSearchResult
deriving DecidableEq

/-- `SearchAllSuffixesResult` from `sa_searcher.rs`. -/
inductive SearchAllSuffixesResult
  | NoMatches
  | MaxMatches : List Nat → SearchAllSuffixesResult
  | SearchResult : List Nat → SearchAllSuffixesResult
deriving DecidableEq

/-- The matching `while` loop of `Searcher::compare` (lines 179–187): the
number of leading positions on which the two remaining strings match
under `ilMatch`; the loop stops at the first mismatch or when either
string (query remainder / text remainder) is exhausted. -/
def ilMatchLen : List Nat → List Nat → Nat
  | a :: as, b :: bs => if ilMatch a b then ilMatchLen as bs + 1 else 0
  | _, _ => 0

/-- `Searcher::compare` (lines 167–213).  Starting the cursors at
`skip`, both advance together, so `index_in_suffix - index_in_search_string`
is constantly `suffix`; the final `index_in_search_string` is
`skip + ilMatchLen (q.drop skip) (text.drop (suffix + skip))`. -/
def Searcher.compare (s : Searcher) (searchString : List Nat) (suffix skip : Nat)
    (bound : BoundSearch) : Bool × Nat :=
  let m := skip + ilMatchLen (searchString.drop skip) (s.text.drop (suffix + skip))
  let indexInSuffix := suffix + m
  let isCondOrEqual :=
    if searchString.length ≠ 0 then
      if m = searchString.length then true
      else if indexInSuffix < s.text.length then
        match bound with
        | .Minimum => decide (normIL (searchString.getD m 0) < normIL (tGet s.text indexInSuffix))
        | .Maximum => decide (normIL (tGet s.text indexInSuffix) < normIL (searchString.getD m 0))
      else false
    else false
  (isCondOrEqual, m)

/-- The `while right - left > 1` loop of `Searcher::binary_search_bound`
(lines 235–251), with a fuel dominating the strictly decreasing
`right - left`.  State: `(left, right, lcp_left, lcp_right, found)`. -/
def bsLoopF (s : Searcher) (bound : BoundSearch) (searchString : List Nat) :
    Nat → Nat → Nat → Nat → Nat → Bool → Nat × Nat × Nat × Nat × Bool
  | 0, left, right, lcpLeft, lcpRight, found => (left, right, lcpLeft, lcpRight, found)
  | fuel + 1, left, right, lcpLeft, lcpRight, found =>
    if right - left > 1 then
      let center := (left + right) / 2
      let skip := min lcpLeft lcpRight
      let res := s.compare searchString (saGet s center) skip bound
      let found' := found || (res.2 == searchString.length)
      if (res.1 && bound.isMin) || (!res.1 && !bound.isMin) then
        bsLoopF s bound searchString fuel left center lcpLeft res.2 found'
      else
        bsLoopF s bound searchString fuel center right res.2 lcpRight found'
    else (left, right, lcpLeft, lcpRight, found)

/-- `Searcher::binary_search_bound` (lines 226–268): the loop starting
from `(0, sa.len())`, then the explicit edge-case comparison at index 0,
then `Minimum ↦ (found, right)`, `Maximum ↦ (found, left)`. -/
def Searcher.binarySearchBound (s : Searcher) (bound : BoundSearch)
    (searchString : List Nat) : Bool × Nat :=
  match bsLoopF s bound searchString (s.saVals.length + 1) 0 s.saVals.length 0 0 false with
  | (left, right, lcpLeft, lcpRight, found) =>
    if right == 1 && left == 0 then
      let res := s.compare searchString (saGet s 0) (min lcpLeft lcpRight) bound
      let found' := found || (res.2 == searchString.length)
      let right' := if bound.isMin && res.1 then 0 else right
      match bound with
      | .Minimum => (found', right')
      | .Maximum => (found', left)
    else
      match bound with
      | .Minimum => (found, right)
      | .Maximum => (found, left)

/-- `Searcher::search_bounds` (lines 279–289). -/
def Searcher.searchBounds (s : Searcher) (searchString : List Nat) : BoundSearchResult :=
  let minRes := s.binarySearchBound .Minimum searchString
  if !minRes.1 then BoundSearchResult.NoMatches
  else
    let maxRes := s.binarySearchBound .Maximum searchString
    BoundSearchResult.SearchResult (minRes.2, maxRes.2 + 1)

/-- The per-character comparison closure of
`ProteinTextSlice::equals_slice` (`text-compression/src/lib.rs`, lines
240–250); first argument: search character, second: text character. -/
def charMatchB (equateIl : Bool) (a b : Nat) : Bool :=
  if equateIl then a == b || (a == charI && b == charL) || (a == charL && b == charI)
  else a == b

/-- `ProteinTextSlice::equals_slice` on the slice `[st, en)` of `t`: the
zip of `other` with the slice iterator visits
`min other.length (en - st)` positions. -/
def equalsSlice (t : List Nat) (st en : Nat) (other : List Nat) (equateIl : Bool) : Bool :=
  (List.range (min other.length (en - st))).all fun k =>
    charMatchB equateIl (other.getD k 0) (tGet t (st + k))

/-- `ProteinTextSlice::check_il_locations` (lines 262–275) for the slice
of `t` starting at `st` (an early `return false` is `List.all`). -/
def checkIlLocationsM (t : List Nat) (st skip : Nat) (ilLocations searchString : List Nat) :
    Bool :=
  ilLocations.all fun loc =>
    searchString.getD (loc - skip) 0 == tGet t (st + (loc - skip))

/-- `Searcher::check_prefix` (lines 440–442). -/
def checkPrefix (searchStringPrefix : List Nat) (t : List Nat) (st en : Nat)
    (equateIl : Bool) : Bool :=
  equalsSlice t st en searchStringPrefix equateIl

/-- `Searcher::check_suffix` (lines 461–469); the text slice starts at
`st` (= the matched suffix position). -/
def checkSuffix (skip : Nat) (ilLocations searchString : List Nat) (t : List Nat)
    (st : Nat) (equateIl : Bool) : Bool :=
  if equateIl then true else checkIlLocationsM t st skip ilLocations searchString

/-- `Searcher::check_start_of_protein` (lines 395–397). -/
def Searcher.checkStartOfProtein (s : Searcher) (cutIndex : Nat) : Bool :=
  cutIndex == 0 || tGet s.text (cutIndex - 1) == SEPARATION_CHARACTER

/-- `Searcher::check_end_of_protein` (lines 408–411). -/
def Searcher.checkEndOfProtein (s : Searcher) (cutIndex : Nat) : Bool :=
  tGet s.text cutIndex == TERMINATION_CHARACTER
    || tGet s.text cutIndex == SEPARATION_CHARACTER

/-- `Searcher::check_tryptic_cut` (lines 422–425). -/
def Searcher.checkTrypticCut (s : Searcher) (cutIndex : Nat) : Bool :=
  (tGet s.text (cutIndex - 1) == charK || tGet s.text (cutIndex - 1) == charR)
    && !(tGet s.text cutIndex == charP)

/-- The `il_locations` vector computed at the top of
`search_matching_suffixes` (lines 313–318): indices of `I`/`L` in the
query, in ascending order. -/
def ilLocations (q : List Nat) : List Nat :=
  (List.range q.length).filter fun i => q.getD i 0 == charI || q.getD i 0 == charL

/-- The filter applied to a candidate occurrence in
`search_matching_suffixes` (lines 347–363), for a suffix value
`suffix ≥ skip`: prefix check, I/L suffix check, optional tryptic check. -/
def keepCandidate (s : Searcher) (q : List Nat) (equateIl tryptic : Bool)
    (skip : Nat) (ilCur : List Nat) (suffix : Nat) : Bool :=
  let matchStart := suffix - skip
  let matchEnd := suffix + q.length - skip
  (skip == 0 || checkPrefix (q.take skip) s.text matchStart suffix equateIl)
    && checkSuffix skip ilCur (q.drop skip) s.text suffix equateIl
    && (!tryptic
        || ((s.checkStartOfProtein matchStart || s.checkTrypticCut matchStart)
            && (s.checkEndOfProtein matchEnd || s.checkTrypticCut matchEnd)))

/-- The `while sa_index < max_bound` loop of `search_matching_suffixes`
(lines 335–374), with fuel dominating `maxBound - saIndex`.  `Sum.inl`
is the early `return MaxMatches`, `Sum.inr` the normal loop exit. -/
def innerLoopF (s : Searcher) (q : List Nat) (maxMatches : Nat) (equateIl tryptic : Bool)
    (skip : Nat) (ilCur : List Nat) (maxBound : Nat) :
    Nat → Nat → List Nat → Sum (List Nat) (List Nat)
  | 0, _, acc => Sum.inr acc
  | fuel + 1, saIndex, acc =>
    if saIndex < maxBound then
      let suffix := saGet s saIndex
      if skip ≤ suffix then
        if keepCandidate s q equateIl tryptic skip ilCur suffix then
          let acc' := acc ++ [suffix - skip]
          if maxMatches ≤ acc'.length then Sum.inl acc'
          else innerLoopF s q maxMatches equateIl tryptic skip ilCur maxBound fuel (saIndex + 1) acc'
        else innerLoopF s q maxMatches equateIl tryptic skip ilCur maxBound fuel (saIndex + 1) acc
      else innerLoopF s q maxMatches equateIl tryptic skip ilCur maxBound fuel (saIndex + 1) acc
    else Sum.inr acc

/-- The `while skip < sample_rate` loop of `search_matching_suffixes`
(lines 320–377) plus the final result construction (lines 379–384), with
fuel dominating `sampleRate - skip`.  `il_locations_current_suffix` is
the ascending `il_locations` with the entries `< skip` dropped. -/
def outerLoopF (s : Searcher) (q : List Nat) (maxMatches : Nat) (equateIl tryptic : Bool) :
    Nat → Nat → List Nat → SearchAllSuffixesResult
  | 0, _, acc =>
    if acc.isEmpty then SearchAllSuffixesResult.NoMatches
    else SearchAllSuffixesResult.SearchResult acc
  | fuel + 1, skip, acc =>
    if skip < s.sampleRate then
      let ilCur := (ilLocations q).dropWhile fun l => decide (l < skip)
      match s.searchBounds (q.drop skip) with
      | BoundSearchResult.SearchResult (minBound, maxBound) =>
        match innerLoopF s q maxMatches equateIl tryptic skip ilCur maxBound maxBound minBound acc with
        | Sum.inl capped => SearchAllSuffixesResult.MaxMatches capped
        | Sum.inr acc' => outerLoopF s q maxMatches equateIl tryptic fuel (skip + 1) acc'
      | BoundSearchResult.NoMatches => outerLoopF s q maxMatches equateIl tryptic fuel (skip + 1) acc
    else
      if acc.isEmpty then SearchAllSuffixesResult.NoMatches
      else SearchAllSuffixesResult.SearchResult acc

/-- `Searcher::search_matching_suffixes` (lines 305–384). -/
def Searcher.searchMatchingSuffixes (s : Searcher) (searchString : List Nat)
    (maxMatches : Nat) (equateIl tryptic : Bool) : SearchAllSuffixesResult :=
  outerLoopF s searchString maxMatches equateIl tryptic s.sampleRate 0 []

/-- The offsets carried by a search result (`NoMatches` carries none). -/
def resultList : SearchAllSuffixesResult → List Nat
  | SearchAllSuffixesResult.NoMatches => []
  | SearchAllSuffixesResult.MaxMatches l => l
  | SearchAllSuffixesResult.SearchResult l => l

/-- `usize::MAX` on a 64-bit target. -/
def USIZE_MAX : Nat := 2 ^ 64 - 1

/-- `peptide.strip_suffix('\n').unwrap_or(peptide)`. -/
def stripNewline (p : List Nat) : List Nat :=
  if p.getLast? = some 10 then p.dropLast else p

/-- ASCII `to_uppercase` on one byte (peptides are ASCII). -/
def toUpperByte (c : Nat) : Nat := if 97 ≤ c ∧ c ≤ 122 then c - 32 else c

/-- `search_proteins_for_peptide` (`sa-index/src/peptide_search.rs`,
lines 63–98) up to the found suffix list: newline stripping and
uppercasing, the short-peptide guard, and the dispatch on the search
result (`true` = cutoff used).  The final `retrieve_proteins` step maps
the returned offsets through `suffix_index_to_protein` and does not
affect the guard behaviour modelled here; the caller in this source
version passes no tryptic flag, which corresponds to `tryptic = false`. -/
def searchProteinsForPeptide (s : Searcher) (peptide : List Nat) (cutoff : Nat)
    (equalizeIAndL : Bool) : Option (Bool × List Nat) :=
  let pep := (stripNewline peptide).map toUpperByte
  if pep.length < s.sampleRate then none
  else
    match s.searchMatchingSuffixes pep cutoff equalizeIAndL false with
    | SearchAllSuffixesResult.MaxMatches l => some (true, l)
    | SearchAllSuffixesResult.SearchResult l => some (false, l)
    | SearchAllSuffixesResult.NoMatches => none

/-! ### Specification vocabulary for the searcher -/

/-- `q` occurs in the text at offset `p`: the characters of `t` from `p`
on spell `q`, character equality being I≡L-tolerant iff `equateIl`. -/
def occursAt (t q : List Nat) (equateIl : Bool) (p : Nat) : Prop :=
  p + q.length ≤ t.length ∧
    ∀ k, k < q.length →
      (if equateIl then ilMatch (q.getD k 0) (tGet t (p + k)) = true
       else q.getD k 0 = tGet t (p + k))

instance (t q : List Nat) (equateIl : Bool) (p : Nat) :
    Decidable (occursAt t q equateIl p) := by unfold occursAt; infer_instance

/-- The L→I-normalised suffix of the text starting at `p`. -/
def normSuffix (t : List Nat) (p : Nat) : List Nat := (t.drop p).map normIL

/-- The L→I-normalised query. -/
def qNorm (q : List Nat) : List Nat := q.map normIL

/-- The normalised query is a prefix of the normalised suffix at SA slot `i`:
"the suffix at `SA[i]` has `q` as a prefix under I≡L". -/
def qPrefixAt (s : Searcher) (q : List Nat) (i : Nat) : Prop :=
  IsPref (qNorm q) (normSuffix s.text (saGet s i))

instance (w a : List Nat) : Decidable (IsPref w a) := by unfold IsPref; infer_instance

instance (s : Searcher) (q : List Nat) (i : Nat) : Decidable (qPrefixAt s q i) := by
  unfold qPrefixAt; infer_instance

/-- The unique shift `k ∈ [0, sampleRate)` with `(p + k) % sampleRate = 0`:
the only pass of the sparse search that can report offset `p`. -/
def canShift (sampleRate p : Nat) : Nat := (sampleRate - p % sampleRate) % sampleRate

/-! ## Bridges between the model and the specification vocabulary -/

theorem normIL_term : normIL TERMINATION_CHARACTER = TERMINATION_CHARACTER := by decide

theorem normSuffix_length (t : List Nat) (p : Nat) :
    (normSuffix t p).length = t.length - p := by simp [normSuffix]

theorem qNorm_length (q : List Nat) : (qNorm q).length = q.length := by simp [qNorm]

theorem getD_mem {l : List Nat} {i : Nat} (h : i < l.length) : l.getD i 0 ∈ l := by
  rw [List.getD_eq_getElem l 0 h]
  exact List.getElem_mem h

theorem normSuffix_getD (t : List Nat) (p k : Nat) (h : k < t.length - p) :
    (normSuffix t p).getD k 0 = normIL (tGet t (p + k)) := by
  have h1 : k < (List.map normIL (t.drop p)).length := by simp; omega
  have h2 : p + k < t.length := by omega
  rw [normSuffix, List.getD_eq_getElem _ 0 h1, List.getElem_map,
    tGet, List.getD_eq_getElem _ 0 h2]
  congr 1
  exact List.getElem_drop t

theorem qNorm_getD (q : List Nat) (k : Nat) (h : k < q.length) :
    (qNorm q).getD k 0 = normIL (q.getD k 0) := by
  have h1 : k < (List.map normIL q).length := by simpa using h
  rw [qNorm, List.getD_eq_getElem _ 0 h1, List.getElem_map, List.getD_eq_getElem _ 0 h]

theorem getD_take_of_lt {a : List Nat} {n k : Nat} (h : k < n) (h2 : k < a.length) :
    (a.take n).getD k 0 = a.getD k 0 := by
  have h1 : k < (a.take n).length := by simp; omega
  rw [List.getD_eq_getElem _ 0 h1, List.getD_eq_getElem _ 0 h2]
  exact List.getElem_take a

theorem cpl_self (a : List Nat) : cpl a a = a.length := by
  induction a with
  | nil => simp [cpl]
  | cons x as ih => simp [cpl, ih]

theorem isPref_take_of_le_cpl {a b : List Nat} {k : Nat} (h : k ≤ cpl a b) :
    IsPref (a.take k) b := by
  have hka : k ≤ a.length := le_trans h (cpl_le_left a b)
  have hkb : k ≤ b.length := le_trans h (cpl_le_right a b)
  rw [isPref_iff]
  constructor
  · simp; omega
  · intro j hj
    have hjk : j < k := by simpa [Nat.lt_min, hka] using hj
    rw [getD_take_of_lt hjk (by omega)]
    exact getD_eq_of_lt_cpl a b j (by omega)

theorem le_cpl_of_isPref_take {a b : List Nat} {k : Nat} (hk : k ≤ a.length)
    (h : IsPref (a.take k) b) : k ≤ cpl a b := by
  rw [isPref_iff] at h
  obtain ⟨hlen, hag⟩ := h
  have hlt : (a.take k).length = k := by simp; omega
  refine le_cpl_of_agree a b k hk (by omega) (fun j hj => ?_)
  rw [← getD_take_of_lt hj (by omega)]
  exact hag j (by omega)

theorem ilMatchLen_eq_cpl :
    ∀ a b : List Nat, ilMatchLen a b = cpl (a.map normIL) (b.map normIL) := by
  intro a
  induction a with
  | nil => intro b; cases b <;> simp [ilMatchLen, cpl]
  | cons x as ih =>
    intro b
    cases b with
    | nil => simp [ilMatchLen, cpl]
    | cons y bs =>
      simp only [ilMatchLen, List.map_cons, cpl]
      rcases hm : ilMatch x y with hf | ht
      · have : ¬ normIL x = normIL y := by
          rw [← ilMatch_iff_normIL_eq, hm]; simp
        simp [this]
      · have : normIL x = normIL y := by rw [← ilMatch_iff_normIL_eq, hm]
        simp [this, ih bs]

/-! ## Characterisation of `Searcher::compare` -/

/-- Region "strictly below the query block": suffix < query. -/
def LowP (qn u : List Nat) : Prop := lexLtb u qn = true

/-- Region "strictly above the query block": query < suffix, not a prefix. -/
def HighP (qn u : List Nat) : Prop := lexLtb qn u = true ∧ ¬ IsPref qn u

theorem not_lowP_of_isPref {qn u : List Nat} (h : IsPref qn u) : ¬ LowP qn u := by
  unfold LowP
  rw [not_lexLtb_of_isPref h]
  simp

theorem not_highP_of_isPref {qn u : List Nat} (h : IsPref qn u) : ¬ HighP qn u :=
  fun hc => hc.2 h

theorem not_lowP_highP {qn u : List Nat} : ¬ (LowP qn u ∧ HighP qn u) := by
  rintro ⟨h1, h2, _⟩
  have := lexLtb_trans u qn u h1 h2
  rw [lexLtb_irrefl] at this
  exact Bool.false_ne_true this

theorem isPref_of_not_lowP_highP {qn u : List Nat} (h1 : ¬ LowP qn u) (h2 : ¬ HighP qn u) :
    IsPref qn u := by
  rcases lexLtb_trichotomy u qn with h | h | h
  · exact absurd h h1
  · subst h
    unfold IsPref
    rw [cpl_self]
  · by_contra hnp
    exact h2 ⟨h, hnp⟩

section CompareSpec

variable (s : Searcher) (q : List Nat)

/-- `compare` returns in its second component the I≡L-length of the
common prefix of the query and the suffix, provided the skipped prefix
is known to match. -/
theorem compare_snd (bound : BoundSearch) (p skip : Nat)
    (hskip : skip ≤ cpl (qNorm q) (normSuffix s.text p)) :
    (s.compare q p skip bound).2 = cpl (qNorm q) (normSuffix s.text p) := by
  show skip + ilMatchLen (q.drop skip) (s.text.drop (p + skip)) = _
  rw [ilMatchLen_eq_cpl]
  have h1 : (q.drop skip).map normIL = (qNorm q).drop skip := by
    rw [qNorm, List.map_drop]
  have h2 : (s.text.drop (p + skip)).map normIL = (normSuffix s.text p).drop skip := by
    rw [normSuffix, List.map_drop, List.map_drop, List.drop_drop]
  rw [h1, h2]
  exact (cpl_drop skip _ _ hskip).symm

/-- With a `$`-terminated text and a `$`-free query, the comparison never
exhausts the text: the common prefix either is the whole query or stops
strictly inside the suffix. -/
theorem cpl_suffix_cases (hcanon : ∀ c ∈ q, c ≠ TERMINATION_CHARACTER)
    (hterm : tGet s.text (s.text.length - 1) = TERMINATION_CHARACTER)
    (p : Nat) (hp : p < s.text.length) :
    cpl (qNorm q) (normSuffix s.text p) = q.length ∨
    cpl (qNorm q) (normSuffix s.text p) < (normSuffix s.text p).length := by
  set m := cpl (qNorm q) (normSuffix s.text p) with hm
  by_contra hcon
  push_neg at hcon
  obtain ⟨hne, hge⟩ := hcon
  have hm1 : m ≤ q.length := by
    have := cpl_le_left (qNorm q) (normSuffix s.text p)
    rwa [qNorm_length] at this
  have hm2 : m ≤ (normSuffix s.text p).length := cpl_le_right _ _
  have hmu : m = s.text.length - p := by
    rw [normSuffix_length] at hm2 hge
    omega
  have hmpos : 1 ≤ m := by omega
  have hlast := getD_eq_of_lt_cpl (qNorm q) (normSuffix s.text p) (m - 1) (by omega)
  rw [qNorm_getD q (m - 1) (by omega), normSuffix_getD s.text p (m - 1) (by omega)] at hlast
  have hidx : p + (m - 1) = s.text.length - 1 := by omega
  rw [hidx, hterm, normIL_term] at hlast
  have hmem : q.getD (m - 1) 0 ∈ q := getD_mem (by omega)
  exact (hcanon _ hmem) ((normIL_eq_term_iff _).mp hlast)

/-- The first component of `compare` for the minimum bound: true iff the
suffix is not strictly below the query. -/
theorem compare_fst_min (hq : q ≠ [])
    (hcanon : ∀ c ∈ q, c ≠ TERMINATION_CHARACTER)
    (hterm : tGet s.text (s.text.length - 1) = TERMINATION_CHARACTER)
    (p skip : Nat) (hp : p < s.text.length)
    (hskip : skip ≤ cpl (qNorm q) (normSuffix s.text p)) :
    ((s.compare q p skip BoundSearch.Minimum).1 = true) ↔
      ¬ LowP (qNorm q) (normSuffix s.text p) := by
  have hm := compare_snd s q BoundSearch.Minimum p skip hskip
  set m := cpl (qNorm q) (normSuffix s.text p) with hmdef
  have hql : q.length ≠ 0 := by
    intro h; exact hq (List.eq_nil_of_length_eq_zero h)
  have hm1 : m ≤ q.length := by
    have := cpl_le_left (qNorm q) (normSuffix s.text p)
    rwa [qNorm_length] at this
  rcases eq_or_ne m q.length with heq | hne
  · -- full match: prefix region
    have hpref : IsPref (qNorm q) (normSuffix s.text p) := by
      unfold IsPref
      rw [← hmdef, heq, qNorm_length]
    have : (s.compare q p skip BoundSearch.Minimum).1 = true := by
      show (if q.length ≠ 0 then
        if skip + ilMatchLen (q.drop skip) (s.text.drop (p + skip)) = q.length then true
        else _ else false) = true
      have : skip + ilMatchLen (q.drop skip) (s.text.drop (p + skip)) = q.length := by
        have := hm; simp only [Searcher.compare] at this; omega
      simp [hql, this]
    rw [this]
    simp only [true_iff]
    exact not_lowP_of_isPref hpref
  · -- mismatch strictly inside the suffix
    have hmlt : m < q.length := by omega
    have hcase := cpl_suffix_cases s q hcanon hterm p hp
    have hmu : m < (normSuffix s.text p).length := by
      rcases hcase with h | h
      · omega
      · exact h
    have hmu' : p + m < s.text.length := by
      rw [normSuffix_length] at hmu; omega
    have hmm : skip + ilMatchLen (q.drop skip) (s.text.drop (p + skip)) = m := by
      have := hm; simp only [Searcher.compare] at this; omega
    have hlhs : (s.compare q p skip BoundSearch.Minimum).1 =
        decide (normIL (q.getD m 0) < normIL (tGet s.text (p + m))) := by
      show (if q.length ≠ 0 then
        if skip + ilMatchLen (q.drop skip) (s.text.drop (p + skip)) = q.length then true
        else if p + (skip + ilMatchLen (q.drop skip) (s.text.drop (p + skip))) < s.text.length
          then decide (normIL (q.getD (skip + ilMatchLen (q.drop skip) (s.text.drop (p + skip))) 0) <
            normIL (tGet s.text (p + (skip + ilMatchLen (q.drop skip) (s.text.drop (p + skip))))))
          else false
        else false) = _
      rw [hmm]
      simp [hql, hne, hmu']
    rw [hlhs]
    have hq1 : (qNorm q).getD m 0 = normIL (q.getD m 0) := qNorm_getD q m hmlt
    have hq2 : (normSuffix s.text p).getD m 0 = normIL (tGet s.text (p + m)) :=
      normSuffix_getD s.text p m (by rw [normSuffix_length] at hmu; omega)
    have hne2 : (qNorm q).getD m 0 ≠ (normSuffix s.text p).getD m 0 :=
      cpl_mismatch (qNorm q) (normSuffix s.text p) (by rw [qNorm_length]; omega) hmu
    unfold LowP
    rw [lexLtb_iff_cpl]
    have hcm : cpl (normSuffix s.text p) (qNorm q) = m := by rw [cpl_comm]
    rw [hcm, qNorm_length]
    constructor
    · intro h
      have h' : normIL (q.getD m 0) < normIL (tGet s.text (p + m)) := by simpa using h
      rintro (⟨h1, _⟩ | ⟨_, _, h3⟩)
      · omega
      · rw [hq1, hq2] at hne2 h3
        omega
    · intro h
      simp only [not_or, not_and] at h
      obtain ⟨_, h2⟩ := h
      have h3 := h2 hmu (by omega)
      rw [hq1, hq2] at hne2 h3
      simp only [decide_eq_true_eq]
      omega

/-- The first component of `compare` for the maximum bound: true iff the
suffix is not strictly above the query. -/
theorem compare_fst_max (hq : q ≠ [])
    (hcanon : ∀ c ∈ q, c ≠ TERMINATION_CHARACTER)
    (hterm : tGet s.text (s.text.length - 1) = TERMINATION_CHARACTER)
    (p skip : Nat) (hp : p < s.text.length)
    (hskip : skip ≤ cpl (qNorm q) (normSuffix s.text p)) :
    ((s.compare q p skip BoundSearch.Maximum).1 = true) ↔
      ¬ HighP (qNorm q) (normSuffix s.text p) := by
  have hm := compare_snd s q BoundSearch.Maximum p skip hskip
  set m := cpl (qNorm q) (normSuffix s.text p) with hmdef
  have hql : q.length ≠ 0 := by
    intro h; exact hq (List.eq_nil_of_length_eq_zero h)
  have hm1 : m ≤ q.length := by
    have := cpl_le_left (qNorm q) (normSuffix s.text p)
    rwa [qNorm_length] at this
  rcases eq_or_ne m q.length with heq | hne
  · have hpref : IsPref (qNorm q) (normSuffix s.text p) := by
      unfold IsPref
      rw [← hmdef, heq, qNorm_length]
    have : (s.compare q p skip BoundSearch.Maximum).1 = true := by
      show (if q.length ≠ 0 then
        if skip + ilMatchLen (q.drop skip) (s.text.drop (p + skip)) = q.length then true
        else _ else false) = true
      have : skip + ilMatchLen (q.drop skip) (s.text.drop (p + skip)) = q.length := by
        have := hm; simp only [Searcher.compare] at this; omega
      simp [hql, this]
    rw [this]
    simp only [true_iff]
    exact not_highP_of_isPref hpref
  · have hmlt : m < q.length := by omega
    have hcase := cpl_suffix_cases s q hcanon hterm p hp
    have hmu : m < (normSuffix s.text p).length := by
      rcases hcase with h | h
      · omega
      · exact h
    have hmu' : p + m < s.text.length := by
      rw [normSuffix_length] at hmu; omega
    have hmm : skip + ilMatchLen (q.drop skip) (s.text.drop (p + skip)) = m := by
      have := hm; simp only [Searcher.compare] at this; omega
    have hlhs : (s.compare q p skip BoundSearch.Maximum).1 =
        decide (normIL (tGet s.text (p + m)) < normIL (q.getD m 0)) := by
      show (if q.length ≠ 0 then
        if skip + ilMatchLen (q.drop skip) (s.text.drop (p + skip)) = q.length then true
        else if p + (skip + ilMatchLen (q.drop skip) (s.text.drop (p + skip))) < s.text.length
          then decide (normIL (tGet s.text (p + (skip + ilMatchLen (q.drop skip) (s.text.drop (p + skip))))) <
            normIL (q.getD (skip + ilMatchLen (q.drop skip) (s.text.drop (p + skip))) 0))
          else false
        else false) = _
      rw [hmm]
      simp [hql, hne, hmu']
    rw [hlhs]
    have hq1 : (qNorm q).getD m 0 = normIL (q.getD m 0) := qNorm_getD q m hmlt
    have hq2 : (normSuffix s.text p).getD m 0 = normIL (tGet s.text (p + m)) :=
      normSuffix_getD s.text p m (by rw [normSuffix_length] at hmu; omega)
    have hne2 : (qNorm q).getD m 0 ≠ (normSuffix s.text p).getD m 0 :=
      cpl_mismatch (qNorm q) (normSuffix s.text p) (by rw [qNorm_length]; omega) hmu
    have hnp : ¬ IsPref (qNorm q) (normSuffix s.text p) := by
      unfold IsPref
      rw [← hmdef, qNorm_length]
      omega
    unfold HighP
    rw [lexLtb_iff_cpl, qNorm_length]
    constructor
    · intro h
      have h' : normIL (tGet s.text (p + m)) < normIL (q.getD m 0) := by simpa using h
      rintro ⟨(⟨h1, _⟩ | ⟨_, _, h3⟩), _⟩
      · omega
      · rw [hq1, hq2] at hne2 h3
        omega
    · intro h
      have h2 : ¬ lexLtb (qNorm q) (normSuffix s.text p) = true := by
        intro hc; exact h ⟨by rw [lexLtb_iff_cpl, qNorm_length] at hc; exact hc, hnp⟩
      rw [lexLtb_iff_cpl, qNorm_length] at h2
      simp only [not_or, not_and] at h2
      obtain ⟨_, h3⟩ := h2
      have h4 := h3 (by omega) hmu
      rw [hq1, hq2] at hne2 h4
      simp only [decide_eq_true_eq]
      omega

/-- `compare` reports a full-length LCP exactly on the prefix region. -/
theorem compare_snd_eq_len_iff (bound : BoundSearch) (p skip : Nat)
    (hskip : skip ≤ cpl (qNorm q) (normSuffix s.text p)) :
    ((s.compare q p skip bound).2 = q.length) ↔
      IsPref (qNorm q) (normSuffix s.text p) := by
  rw [compare_snd s q bound p skip hskip]
  unfold IsPref
  rw [qNorm_length]

end CompareSpec

/-! ## Regions of the suffix array relative to a query -/

/-- The normalised suffix stored at SA slot `i`. -/
def uAt (s : Searcher) (i : Nat) : List Nat := normSuffix s.text (saGet s i)

/-- The I≡L common prefix length of the query with slot `i`'s suffix. -/
def cplAt (s : Searcher) (q : List Nat) (i : Nat) : Nat := cpl (qNorm q) (uAt s i)

/-- Slot `i`'s suffix is strictly below the query block. -/
def LowI (s : Searcher) (q : List Nat) (i : Nat) : Prop := LowP (qNorm q) (uAt s i)

/-- Slot `i`'s suffix is strictly above the query block. -/
def HighI (s : Searcher) (q : List Nat) (i : Nat) : Prop := HighP (qNorm q) (uAt s i)

/-- The SA is sorted by the I≡L (normalised-suffix) lexicographic order:
no later slot is strictly smaller. -/
def Sorted (s : Searcher) : Prop :=
  ∀ j, j < s.saVals.length → ∀ i, i < j → lexLtb (uAt s j) (uAt s i) = false

/-- Every SA value is a position of the text. -/
def InRange (s : Searcher) : Prop := ∀ v ∈ s.saVals, v < s.text.length

/-- The text ends with the terminator `$`. -/
def TermText (s : Searcher) : Prop :=
  tGet s.text (s.text.length - 1) = TERMINATION_CHARACTER

/-- The query contains no terminator character. -/
def NoTermQ (q : List Nat) : Prop := ∀ c ∈ q, c ≠ TERMINATION_CHARACTER

instance (s : Searcher) : Decidable (Sorted s) := by unfold Sorted; infer_instance

instance (s : Searcher) : Decidable (InRange s) := by unfold InRange; infer_instance

instance (s : Searcher) : Decidable (TermText s) := by unfold TermText; infer_instance

instance (q : List Nat) : Decidable (NoTermQ q) := by unfold NoTermQ; infer_instance

theorem qPrefixAt_def (s : Searcher) (q : List Nat) (i : Nat) :
    qPrefixAt s q i ↔ IsPref (qNorm q) (uAt s i) := Iff.rfl

theorem saGet_lt {s : Searcher} (hrange : InRange s) {i : Nat}
    (h : i < s.saVals.length) : saGet s i < s.text.length :=
  hrange _ (getD_mem h)

theorem lowI_mono {s : Searcher} {q : List Nat} (hsorted : Sorted s)
    {i j : Nat} (hij : i ≤ j) (hj : j < s.saVals.length) (h : LowI s q j) :
    LowI s q i := by
  rcases Nat.eq_or_lt_of_le hij with heq | hlt
  · rwa [heq]
  · have hs := hsorted j hj i hlt
    by_contra hni
    by_cases hhi : HighI s q i
    · have := lexLtb_trans (uAt s j) (qNorm q) (uAt s i) h hhi.1
      rw [hs] at this; exact Bool.false_ne_true this
    · have hpref : IsPref (qNorm q) (uAt s i) := isPref_of_not_lowP_highP hni hhi
      have := lexLtb_of_lt_pref h hpref
      rw [hs] at this; exact Bool.false_ne_true this

theorem highI_mono {s : Searcher} {q : List Nat} (hsorted : Sorted s)
    {i j : Nat} (hij : i ≤ j) (hj : j < s.saVals.length) (h : HighI s q i) :
    HighI s q j := by
  rcases Nat.eq_or_lt_of_le hij with heq | hlt
  · rwa [← heq]
  · have hs := hsorted j hj i hlt
    by_contra hnj
    by_cases hlj : LowI s q j
    · have := lexLtb_trans (uAt s j) (qNorm q) (uAt s i) hlj h.1
      rw [hs] at this; exact Bool.false_ne_true this
    · have hpref : IsPref (qNorm q) (uAt s j) := isPref_of_not_lowP_highP hlj hnj
      have := lexLtb_pref_of_lt_not_pref h.1 h.2 hpref
      rw [hs] at this; exact Bool.false_ne_true this

/-- The skipped characters are valid at every probe strictly between the
window boundaries. -/
theorem skip_precond {s : Searcher} {q : List Nat} (hsorted : Sorted s)
    {left right center lcpL lcpR : Nat}
    (hc1 : left < center) (hc2 : center < right) (hr : right ≤ s.saVals.length)
    (hlcpL : lcpL ≤ cplAt s q left)
    (hlcpR : (right = s.saVals.length ∧ lcpR = 0) ∨
      (right < s.saVals.length ∧ lcpR ≤ cplAt s q right)) :
    min lcpL lcpR ≤ cplAt s q center := by
  simp only [cplAt] at hlcpL hlcpR ⊢
  rcases hlcpR with ⟨_, hr0⟩ | ⟨hrL, hlcpR⟩
  · simp [hr0]
  · have hminL : min lcpL lcpR ≤ lcpL := Nat.min_le_left _ _
    have hminR : min lcpL lcpR ≤ lcpR := Nat.min_le_right _ _
    have h1 : cpl (qNorm q) (uAt s left) ≤ (qNorm q).length := cpl_le_left _ _
    have hkq : min lcpL lcpR ≤ (qNorm q).length := by omega
    have hwl : IsPref ((qNorm q).take (min lcpL lcpR)) (uAt s left) :=
      isPref_take_of_le_cpl (by omega)
    have hwr : IsPref ((qNorm q).take (min lcpL lcpR)) (uAt s right) :=
      isPref_take_of_le_cpl (by omega)
    have hab : lexLtb (uAt s center) (uAt s left) = false :=
      hsorted center (by omega) left hc1
    have hbc : lexLtb (uAt s right) (uAt s center) = false :=
      hsorted right hrL center hc2
    have hbetween := isPref_between hwl hwr hab hbc
    exact le_cpl_of_isPref_take hkq hbetween

/-! ## The binary-search loop: minimum bound -/

/-- Loop invariant of the `Minimum` run of `binary_search_bound`. -/
def MinInv (s : Searcher) (q : List Nat) (left right lcpL lcpR : Nat) (found : Bool) : Prop :=
  left < right ∧ right ≤ s.saVals.length ∧
  (left = 0 → lcpL = 0) ∧
  lcpL ≤ cplAt s q left ∧
  (left = 0 ∨ LowI s q left) ∧
  ((right = s.saVals.length ∧ lcpR = 0) ∨
    (right < s.saVals.length ∧ lcpR ≤ cplAt s q right ∧ ¬ LowI s q right)) ∧
  (found = true → ∃ i, i < s.saVals.length ∧ qPrefixAt s q i) ∧
  (found = false → right = s.saVals.length ∨ ¬ qPrefixAt s q right)

theorem bsLoopF_min_spec (s : Searcher) (q : List Nat)
    (hsorted : Sorted s) (hrange : InRange s) (hterm : TermText s)
    (hcanon : NoTermQ q) (hq : q ≠ []) :
    ∀ (fuel left right lcpL lcpR : Nat) (found : Bool),
      right - left ≤ fuel + 1 →
      MinInv s q left right lcpL lcpR found →
      ∃ l' r' cl' cr' f',
        bsLoopF s BoundSearch.Minimum q fuel left right lcpL lcpR found =
          (l', r', cl', cr', f') ∧
        MinInv s q l' r' cl' cr' f' ∧ r' - l' ≤ 1 := by
  intro fuel
  induction fuel with
  | zero =>
    intro left right lcpL lcpR found hfuel hinv
    exact ⟨left, right, lcpL, lcpR, found, rfl, hinv, by omega⟩
  | succ fuel ih =>
    intro left right lcpL lcpR found hfuel hinv
    obtain ⟨hlr, hrL, hl0, hlcpL, hleft, hright, hfT, hfF⟩ := hinv
    by_cases hgap : right - left > 1
    · have hc1 : left < (left + right) / 2 := by omega
      have hc2 : (left + right) / 2 < right := by omega
      have hcL : (left + right) / 2 < s.saVals.length := by omega
      have hp : saGet s ((left + right) / 2) < s.text.length := saGet_lt hrange hcL
      have hskip : min lcpL lcpR ≤ cplAt s q ((left + right) / 2) := by
        refine skip_precond hsorted hc1 hc2 hrL hlcpL ?_
        rcases hright with ⟨h1, h2⟩ | ⟨h1, h2, _⟩
        exacts [Or.inl ⟨h1, h2⟩, Or.inr ⟨h1, h2⟩]
      have hskip' : min lcpL lcpR ≤ cpl (qNorm q) (normSuffix s.text (saGet s ((left + right) / 2))) :=
        hskip
      have hsnd : (s.compare q (saGet s ((left + right) / 2)) (min lcpL lcpR) BoundSearch.Minimum).2 =
          cplAt s q ((left + right) / 2) :=
        compare_snd s q BoundSearch.Minimum _ _ hskip'
      have hfst := compare_fst_min s q hq hcanon hterm (saGet s ((left + right) / 2))
        (min lcpL lcpR) hp hskip'
      have hlen : ((s.compare q (saGet s ((left + right) / 2)) (min lcpL lcpR) BoundSearch.Minimum).2 =
          q.length) ↔ qPrefixAt s q ((left + right) / 2) := by
        rw [qPrefixAt_def]
        exact compare_snd_eq_len_iff s q BoundSearch.Minimum _ _ hskip'
      by_cases hres : (s.compare q (saGet s ((left + right) / 2)) (min lcpL lcpR) BoundSearch.Minimum).1 = true
      · -- suffix at center is not Low: move `right` down to center
        have hnl : ¬ LowI s q ((left + right) / 2) := hfst.mp hres
        have hstep : bsLoopF s BoundSearch.Minimum q (fuel + 1) left right lcpL lcpR found =
            bsLoopF s BoundSearch.Minimum q fuel left ((left + right) / 2) lcpL
              (s.compare q (saGet s ((left + right) / 2)) (min lcpL lcpR) BoundSearch.Minimum).2
              (found || ((s.compare q (saGet s ((left + right) / 2)) (min lcpL lcpR) BoundSearch.Minimum).2 == q.length)) := by
          simp [bsLoopF, hgap, BoundSearch.isMin, hres]
        rw [hstep]
        refine ih left ((left + right) / 2) lcpL _ _ (by omega) ?_
        refine ⟨hc1, by omega, hl0, hlcpL, hleft, ?_, ?_, ?_⟩
        · exact Or.inr ⟨hcL, by rw [hsnd], hnl⟩
        · intro h
          rcases Bool.or_eq_true_iff.mp h with h | h
          · exact hfT h
          · exact ⟨(left + right) / 2, hcL, hlen.mp (by simpa using h)⟩
        · intro h
          rcases Bool.or_eq_false_iff.mp h with ⟨_, h2⟩
          refine Or.inr fun hP => ?_
          have : (s.compare q (saGet s ((left + right) / 2)) (min lcpL lcpR) BoundSearch.Minimum).2 = q.length :=
            hlen.mpr hP
          simp [this] at h2
      · -- suffix at center is Low: move `left` up to center
        have hlow : LowI s q ((left + right) / 2) := by
          by_contra hn
          rw [hfst.mpr hn] at hres
          exact hres rfl
        have hresf : (s.compare q (saGet s ((left + right) / 2)) (min lcpL lcpR) BoundSearch.Minimum).1 = false :=
          Bool.not_eq_true _ ▸ (by simpa using hres)
        have hstep : bsLoopF s BoundSearch.Minimum q (fuel + 1) left right lcpL lcpR found =
            bsLoopF s BoundSearch.Minimum q fuel ((left + right) / 2) right
              (s.compare q (saGet s ((left + right) / 2)) (min lcpL lcpR) BoundSearch.Minimum).2 lcpR
              (found || ((s.compare q (saGet s ((left + right) / 2)) (min lcpL lcpR) BoundSearch.Minimum).2 == q.length)) := by
          simp [bsLoopF, hgap, BoundSearch.isMin, hresf]
        rw [hstep]
        refine ih ((left + right) / 2) right _ lcpR _ (by omega) ?_
        refine ⟨hc2, hrL, by omega, by rw [hsnd], Or.inr hlow, hright, ?_, ?_⟩
        · intro h
          rcases Bool.or_eq_true_iff.mp h with h | h
          · exact hfT h
          · exact ⟨(left + right) / 2, hcL, hlen.mp (by simpa using h)⟩
        · intro h
          rcases Bool.or_eq_false_iff.mp h with ⟨h1, _⟩
          exact hfF h1
    · have hstep : bsLoopF s BoundSearch.Minimum q (fuel + 1) left right lcpL lcpR found =
          (left, right, lcpL, lcpR, found) := by
        simp [bsLoopF, hgap]
      exact ⟨left, right, lcpL, lcpR, found, hstep,
        ⟨hlr, hrL, hl0, hlcpL, hleft, hright, hfT, hfF⟩, by omega⟩

/-- If some slot has the query as a prefix, then a boundary `r'` that is
neither low nor a prefix slot, with only low slots below it, cannot
exist. -/
theorem min_no_match_contra {s : Searcher} {q : List Nat} (hsorted : Sorted s)
    {r' : Nat} (hr'L : r' < s.saVals.length)
    (hnLr : ¬ LowI s q r') (hnPr : ¬ qPrefixAt s q r')
    {i₀ : Nat} (hi₀ : i₀ < s.saVals.length) (hP : qPrefixAt s q i₀)
    (hlow : ∀ i, i < r' → LowI s q i) : False := by
  rcases Nat.lt_trichotomy i₀ r' with h | h | h
  · exact not_lowP_of_isPref (qPrefixAt_def s q i₀ |>.mp hP) (hlow i₀ h)
  · exact hnPr (h ▸ hP)
  · have hHighR : HighI s q r' :=
      by_contra fun hn => hnPr ((qPrefixAt_def s q r').mpr (isPref_of_not_lowP_highP hnLr hn))
    have hHighI : HighI s q i₀ := highI_mono hsorted (by omega) hi₀ hHighR
    exact not_highP_of_isPref ((qPrefixAt_def s q i₀).mp hP) hHighI

/-- Characterisation of `binary_search_bound(Minimum)`: the returned
index is the lower boundary of the block of suffixes prefixed by the
query, and the `found` flag is set exactly when that block is nonempty. -/
theorem binarySearchBound_min_spec (s : Searcher) (q : List Nat)
    (hsorted : Sorted s) (hrange : InRange s) (hterm : TermText s)
    (hcanon : NoTermQ q) (hq : q ≠ []) :
    (s.binarySearchBound BoundSearch.Minimum q).2 ≤ s.saVals.length ∧
    (∀ i, i < (s.binarySearchBound BoundSearch.Minimum q).2 → LowI s q i) ∧
    ((s.binarySearchBound BoundSearch.Minimum q).2 < s.saVals.length →
      ¬ LowI s q (s.binarySearchBound BoundSearch.Minimum q).2) ∧
    ((s.binarySearchBound BoundSearch.Minimum q).1 = true ↔
      ∃ i, i < s.saVals.length ∧ qPrefixAt s q i) := by
  rcases Nat.eq_zero_or_pos s.saVals.length with hL0 | hL
  · -- empty suffix array: the loop does not run and the edge case does not fire
    have hres : s.binarySearchBound BoundSearch.Minimum q = (false, 0) := by
      unfold Searcher.binarySearchBound
      rw [hL0]
      simp [bsLoopF]
    rw [hres]
    refine ⟨by omega, by omega, by omega, ?_⟩
    simp only [Bool.false_eq_true, false_iff]
    rintro ⟨i, hi, _⟩
    omega
  · have hinv0 : MinInv s q 0 s.saVals.length 0 0 false := by
      refine ⟨hL, le_rfl, fun _ => rfl, Nat.zero_le _, Or.inl rfl, Or.inl ⟨rfl, rfl⟩, ?_, ?_⟩
      · intro h; cases h
      · intro _; exact Or.inl rfl
    obtain ⟨l', r', cl', cr', f', heq, hinv, hgap⟩ :=
      bsLoopF_min_spec s q hsorted hrange hterm hcanon hq (s.saVals.length + 1)
        0 s.saVals.length 0 0 false (by omega) hinv0
    obtain ⟨hlr, hrL, hl0, hlcpL, hleft, hright, hfT, hfF⟩ := hinv
    have hr'ated : r' = l' + 1 := by omega
    unfold Searcher.binarySearchBound
    rw [heq]
    by_cases hedge : r' = 1 ∧ l' = 0
    · obtain ⟨hr1, hl'0⟩ := hedge
      subst hr1; subst hl'0
      have hcl0 : cl' = 0 := hl0 rfl
      have hskip0 : min cl' cr' ≤ cpl (qNorm q) (normSuffix s.text (saGet s 0)) := by
        rw [hcl0]; simp
      have hp0 : saGet s 0 < s.text.length := saGet_lt hrange hL
      have hfst := compare_fst_min s q hq hcanon hterm (saGet s 0) (min cl' cr') hp0 hskip0
      have hlen : ((s.compare q (saGet s 0) (min cl' cr') BoundSearch.Minimum).2 = q.length) ↔
          qPrefixAt s q 0 := by
        rw [qPrefixAt_def]
        exact compare_snd_eq_len_iff s q BoundSearch.Minimum _ _ hskip0
      simp only [beq_self_eq_true, Bool.and_self, if_true, BoundSearch.isMin, Bool.true_and]
      by_cases hres0 : (s.compare q (saGet s 0) (min cl' cr') BoundSearch.Minimum).1 = true
      · -- slot 0 is not low: the minimum bound is 0
        have hnl0 : ¬ LowI s q 0 := hfst.mp hres0
        simp only [hres0, if_true]
        refine ⟨by omega, by omega, fun _ => hnl0, ?_⟩
        constructor
        · intro h
          rcases Bool.or_eq_true_iff.mp h with h | h
          · exact hfT h
          · exact ⟨0, hL, hlen.mp (by simpa using h)⟩
        · rintro ⟨i₀, hi₀, hP⟩
          by_contra hn
          have hn' := Bool.not_eq_true _ |>.mp hn
          rcases Bool.or_eq_false_iff.mp hn' with ⟨h1, h2⟩
          have hnP0 : ¬ qPrefixAt s q 0 := fun hP0 => by
            rw [hlen.mpr hP0] at h2
            simp at h2
          exact min_no_match_contra hsorted hL hnl0 hnP0 hi₀ hP (fun i hi => by omega)
      · -- slot 0 is low: the minimum bound is 1
        have hlow0 : LowI s q 0 := by
          by_contra hn
          rw [hfst.mpr hn] at hres0
          exact hres0 rfl
        have hres0' : (s.compare q (saGet s 0) (min cl' cr') BoundSearch.Minimum).1 = false := by
          simpa using hres0
        simp only [hres0', Bool.false_eq_true, if_false]
        refine ⟨by omega, ?_, ?_, ?_⟩
        · intro i hi
          have : i = 0 := by omega
          rwa [this]
        · intro h1L
          rcases hright with ⟨hA, _⟩ | ⟨_, _, hC⟩
          · omega
          · exact hC
        · constructor
          · intro h
            rcases Bool.or_eq_true_iff.mp h with h | h
            · exact hfT h
            · exact ⟨0, hL, hlen.mp (by simpa using h)⟩
          · rintro ⟨i₀, hi₀, hP⟩
            by_contra hn
            have hn' := Bool.not_eq_true _ |>.mp hn
            rcases Bool.or_eq_false_iff.mp hn' with ⟨h1, h2⟩
            have hnP0 : ¬ qPrefixAt s q 0 := fun hP0 => by
              rw [hlen.mpr hP0] at h2
              simp at h2
            rcases hright with ⟨hA, _⟩ | ⟨hB, _, hC⟩
            · -- r' = 1 = length: only slot 0 exists and it is not a prefix slot
              have : i₀ = 0 := by omega
              exact hnP0 (this ▸ hP)
            · have hnP1 : ¬ qPrefixAt s q 1 := by
                rcases hfF h1 with h | h
                · omega
                · exact h
              exact min_no_match_contra hsorted hB hC hnP1 hi₀ hP
                (fun i hi => by
                  have : i = 0 := by omega
                  rwa [this])
    · -- no edge case: l' ≥ 1, low below r', result r'
      have hl1 : 1 ≤ l' := by omega
      have hlowl : LowI s q l' := by
        rcases hleft with h | h
        · omega
        · exact h
      have hcond : ((r' == 1 : Bool) && (l' == 0 : Bool)) = false := by
        have : ¬ (l' = 0) := by omega
        simp [this]
      simp only [hcond, Bool.false_eq_true, if_false]
      refine ⟨hrL, ?_, ?_, ?_⟩
      · intro i hi
        exact lowI_mono hsorted (by omega) (by omega) hlowl
      · intro hr'len
        rcases hright with ⟨hA, _⟩ | ⟨_, _, hC⟩
        · omega
        · exact hC
      · constructor
        · exact hfT
        · rintro ⟨i₀, hi₀, hP⟩
          by_contra hn
          have hn' := Bool.not_eq_true _ |>.mp hn
          rcases hright with ⟨hA, _⟩ | ⟨hB, _, hC⟩
          · -- r' = length: everything below is low, contradicting the prefix slot
            have hlowi : LowI s q i₀ := lowI_mono hsorted (by omega) (by omega) hlowl
            exact not_lowP_of_isPref ((qPrefixAt_def s q i₀).mp hP) hlowi
          · rcases hfF hn' with h | h
            · omega
            · exact min_no_match_contra hsorted hB hC h hi₀ hP
                (fun i hi => lowI_mono hsorted (by omega) (by omega) hlowl)

/-! ## The binary-search loop: maximum bound -/

/-- Loop invariant of the `Maximum` run of `binary_search_bound`. -/
def MaxInv (s : Searcher) (q : List Nat) (left right lcpL lcpR : Nat) : Prop :=
  left < right ∧ right ≤ s.saVals.length ∧
  (left = 0 → lcpL = 0) ∧
  lcpL ≤ cplAt s q left ∧
  (left = 0 ∨ ¬ HighI s q left) ∧
  ((right = s.saVals.length ∧ lcpR = 0) ∨
    (right < s.saVals.length ∧ lcpR ≤ cplAt s q right ∧ HighI s q right))

theorem bsLoopF_max_spec (s : Searcher) (q : List Nat)
    (hsorted : Sorted s) (hrange : InRange s) (hterm : TermText s)
    (hcanon : NoTermQ q) (hq : q ≠ []) :
    ∀ (fuel left right lcpL lcpR : Nat) (found : Bool),
      right - left ≤ fuel + 1 →
      MaxInv s q left right lcpL lcpR →
      ∃ l' r' cl' cr' f',
        bsLoopF s BoundSearch.Maximum q fuel left right lcpL lcpR found =
          (l', r', cl', cr', f') ∧
        MaxInv s q l' r' cl' cr' ∧ r' - l' ≤ 1 := by
  intro fuel
  induction fuel with
  | zero =>
    intro left right lcpL lcpR found hfuel hinv
    exact ⟨left, right, lcpL, lcpR, found, rfl, hinv, by omega⟩
  | succ fuel ih =>
    intro left right lcpL lcpR found hfuel hinv
    obtain ⟨hlr, hrL, hl0, hlcpL, hleft, hright⟩ := hinv
    by_cases hgap : right - left > 1
    · have hc1 : left < (left + right) / 2 := by omega
      have hc2 : (left + right) / 2 < right := by omega
      have hcL : (left + right) / 2 < s.saVals.length := by omega
      have hp : saGet s ((left + right) / 2) < s.text.length := saGet_lt hrange hcL
      have hskip : min lcpL lcpR ≤ cpl (qNorm q) (normSuffix s.text (saGet s ((left + right) / 2))) := by
        refine skip_precond hsorted hc1 hc2 hrL hlcpL ?_
        rcases hright with ⟨h1, h2⟩ | ⟨h1, h2, _⟩
        exacts [Or.inl ⟨h1, h2⟩, Or.inr ⟨h1, h2⟩]
      have hsnd : (s.compare q (saGet s ((left + right) / 2)) (min lcpL lcpR) BoundSearch.Maximum).2 =
          cplAt s q ((left + right) / 2) :=
        compare_snd s q BoundSearch.Maximum _ _ hskip
      have hfst := compare_fst_max s q hq hcanon hterm (saGet s ((left + right) / 2))
        (min lcpL lcpR) hp hskip
      by_cases hres : (s.compare q (saGet s ((left + right) / 2)) (min lcpL lcpR) BoundSearch.Maximum).1 = true
      · -- not High: move `left` up to center
        have hnh : ¬ HighI s q ((left + right) / 2) := hfst.mp hres
        have hstep : bsLoopF s BoundSearch.Maximum q (fuel + 1) left right lcpL lcpR found =
            bsLoopF s BoundSearch.Maximum q fuel ((left + right) / 2) right
              (s.compare q (saGet s ((left + right) / 2)) (min lcpL lcpR) BoundSearch.Maximum).2 lcpR
              (found || ((s.compare q (saGet s ((left + right) / 2)) (min lcpL lcpR) BoundSearch.Maximum).2 == q.length)) := by
          simp [bsLoopF, hgap, BoundSearch.isMin, hres]
        rw [hstep]
        refine ih ((left + right) / 2) right _ lcpR _ (by omega) ?_
        exact ⟨hc2, hrL, by omega, by rw [hsnd], Or.inr hnh, hright⟩
      · -- High: move `right` down to center
        have hhigh : HighI s q ((left + right) / 2) := by
          by_contra hn
          rw [hfst.mpr hn] at hres
          exact hres rfl
        have hresf : (s.compare q (saGet s ((left + right) / 2)) (min lcpL lcpR) BoundSearch.Maximum).1 = false := by
          simpa using hres
        have hstep : bsLoopF s BoundSearch.Maximum q (fuel + 1) left right lcpL lcpR found =
            bsLoopF s BoundSearch.Maximum q fuel left ((left + right) / 2) lcpL
              (s.compare q (saGet s ((left + right) / 2)) (min lcpL lcpR) BoundSearch.Maximum).2
              (found || ((s.compare q (saGet s ((left + right) / 2)) (min lcpL lcpR) BoundSearch.Maximum).2 == q.length)) := by
          simp [bsLoopF, hgap, BoundSearch.isMin, hresf]
        rw [hstep]
        refine ih left ((left + right) / 2) lcpL _ _ (by omega) ?_
        exact ⟨hc1, by omega, hl0, hlcpL, hleft, Or.inr ⟨hcL, by rw [hsnd], hhigh⟩⟩
    · have hstep : bsLoopF s BoundSearch.Maximum q (fuel + 1) left right lcpL lcpR found =
          (left, right, lcpL, lcpR, found) := by
        simp [bsLoopF, hgap]
      exact ⟨left, right, lcpL, lcpR, found, hstep,
        ⟨hlr, hrL, hl0, hlcpL, hleft, hright⟩, by omega⟩

/-- Characterisation of `binary_search_bound(Maximum)`: the returned
index is the last slot before the strictly-high block. -/
theorem binarySearchBound_max_spec (s : Searcher) (q : List Nat)
    (hsorted : Sorted s) (hrange : InRange s) (hterm : TermText s)
    (hcanon : NoTermQ q) (hq : q ≠ []) (hL : 0 < s.saVals.length) :
    (s.binarySearchBound BoundSearch.Maximum q).2 + 1 ≤ s.saVals.length ∧
    (∀ i, (s.binarySearchBound BoundSearch.Maximum q).2 < i → i < s.saVals.length →
      HighI s q i) ∧
    ((s.binarySearchBound BoundSearch.Maximum q).2 = 0 ∨
      ¬ HighI s q (s.binarySearchBound BoundSearch.Maximum q).2) := by
  have hinv0 : MaxInv s q 0 s.saVals.length 0 0 :=
    ⟨hL, le_rfl, fun _ => rfl, Nat.zero_le _, Or.inl rfl, Or.inl ⟨rfl, rfl⟩⟩
  obtain ⟨l', r', cl', cr', f', heq, hinv, hgap⟩ :=
    bsLoopF_max_spec s q hsorted hrange hterm hcanon hq (s.saVals.length + 1)
      0 s.saVals.length 0 0 false (by omega) hinv0
  obtain ⟨hlr, hrL, hl0, hlcpL, hleft, hright⟩ := hinv
  have hproj : (s.binarySearchBound BoundSearch.Maximum q).2 = l' := by
    unfold Searcher.binarySearchBound
    rw [heq]
    dsimp only
    by_cases hc : ((r' == 1 : Bool) && (l' == 0 : Bool)) = true
    · rw [if_pos hc]
    · rw [if_neg hc]
  rw [hproj]
  refine ⟨by omega, ?_, ?_⟩
  · intro i hi1 hi2
    rcases hright with ⟨hA, _⟩ | ⟨hB, _, hC⟩
    · omega
    · exact highI_mono hsorted (by omega) hi2 hC
  · rcases hleft with h | h
    exacts [Or.inl h, Or.inr h]

/-- Full characterisation of `Searcher::search_bounds`: `NoMatches`
exactly when no stored suffix has the query as an I≡L prefix, and a
returned half-open interval `[lo, hi)` containing exactly the slots
whose suffix has the query as an I≡L prefix. -/
theorem searchBounds_spec (s : Searcher) (q : List Nat)
    (hsorted : Sorted s) (hrange : InRange s) (hterm : TermText s)
    (hcanon : NoTermQ q) (hq : q ≠ []) :
    (s.searchBounds q = BoundSearchResult.NoMatches ↔
      ∀ i, i < s.saVals.length → ¬ qPrefixAt s q i) ∧
    ∀ lo hi, s.searchBounds q = BoundSearchResult.SearchResult (lo, hi) →
      hi ≤ s.saVals.length ∧
      ∀ i, i < s.saVals.length → ((lo ≤ i ∧ i < hi) ↔ qPrefixAt s q i) := by
  obtain ⟨hminA, hminB, hminC, hminD⟩ :=
    binarySearchBound_min_spec s q hsorted hrange hterm hcanon hq
  by_cases hfound : (s.binarySearchBound BoundSearch.Minimum q).1 = true
  · obtain ⟨i₀, hi₀, hP₀⟩ := hminD.mp hfound
    have hL : 0 < s.saVals.length := by omega
    obtain ⟨hmaxA, hmaxB, hmaxC⟩ :=
      binarySearchBound_max_spec s q hsorted hrange hterm hcanon hq hL
    have hsb : s.searchBounds q = BoundSearchResult.SearchResult
        ((s.binarySearchBound BoundSearch.Minimum q).2,
         (s.binarySearchBound BoundSearch.Maximum q).2 + 1) := by
      unfold Searcher.searchBounds
      dsimp only
      rw [hfound]
      rfl
    constructor
    · rw [hsb]
      constructor
      · intro h; cases h
      · intro h
        exact absurd hP₀ (h i₀ hi₀)
    · intro lo hi heq2
      rw [hsb] at heq2
      have hlo : lo = (s.binarySearchBound BoundSearch.Minimum q).2 := by
        cases heq2; rfl
      have hhi : hi = (s.binarySearchBound BoundSearch.Maximum q).2 + 1 := by
        cases heq2; rfl
      subst hlo; subst hhi
      refine ⟨by omega, ?_⟩
      intro i hiL
      constructor
      · rintro ⟨h1, h2⟩
        have hnl : ¬ LowI s q i := by
          intro hlow
          have hminlt : (s.binarySearchBound BoundSearch.Minimum q).2 < s.saVals.length := by
            omega
          exact hminC hminlt (lowI_mono hsorted h1 hiL hlow)
        have hnh : ¬ HighI s q i := by
          intro hhigh
          have hle : i ≤ (s.binarySearchBound BoundSearch.Maximum q).2 := by omega
          have hxb : (s.binarySearchBound BoundSearch.Maximum q).2 < s.saVals.length := by
            omega
          have hhx : HighI s q (s.binarySearchBound BoundSearch.Maximum q).2 :=
            highI_mono hsorted hle hxb hhigh
          rcases hmaxC with h0 | hnx
          · -- the maximum pointer is 0 and high: everything is high, no prefix slot
            have : HighI s q i₀ := highI_mono hsorted (by omega) hi₀ (h0 ▸ hhx)
            exact not_highP_of_isPref ((qPrefixAt_def s q i₀).mp hP₀) this
          · exact hnx hhx
        exact (qPrefixAt_def s q i).mpr (isPref_of_not_lowP_highP hnl hnh)
      · intro hP
        constructor
        · by_contra hn
          push_neg at hn
          exact not_lowP_of_isPref ((qPrefixAt_def s q i).mp hP) (hminB i hn)
        · by_contra hn
          push_neg at hn
          have : HighI s q i := hmaxB i (by omega) hiL
          exact not_highP_of_isPref ((qPrefixAt_def s q i).mp hP) this
  · have hff : (s.binarySearchBound BoundSearch.Minimum q).1 = false := by
      simpa using hfound
    have hsb : s.searchBounds q = BoundSearchResult.NoMatches := by
      unfold Searcher.searchBounds
      dsimp only
      rw [hff]
      rfl
    rw [hsb]
    constructor
    · simp only [true_iff]
      intro i hi hP
      exact hfound (hminD.mpr ⟨i, hi, hP⟩)
    · intro lo hi h; cases h

/-! ## Utilities for the sparse search -/

theorem canShift_lt {sr : Nat} (h : 0 < sr) (x : Nat) : canShift sr x < sr :=
  Nat.mod_lt _ h

theorem canShift_spec {sr : Nat} (h : 0 < sr) (x : Nat) : (x + canShift sr x) % sr = 0 := by
  unfold canShift
  rcases Nat.eq_zero_or_pos (x % sr) with h0 | hpos
  · rw [h0, Nat.sub_zero, Nat.mod_self, Nat.add_zero]
    exact h0
  · have hlt : x % sr < sr := Nat.mod_lt _ h
    have hmod : (sr - x % sr) % sr = sr - x % sr := Nat.mod_eq_of_lt (by omega)
    rw [hmod, Nat.add_mod, hmod]
    have hsum : x % sr + (sr - x % sr) = sr := by omega
    rw [hsum, Nat.mod_self]

theorem canShift_eq {sr skip x : Nat} (hskip : skip < sr) (hmod : (x + skip) % sr = 0) :
    canShift sr x = skip := by
  have hsr : 0 < sr := by omega
  have hr : x % sr < sr := Nat.mod_lt _ hsr
  have hmod' : (x % sr + skip) % sr = 0 := by
    rw [Nat.add_mod, Nat.mod_eq_of_lt hskip] at hmod
    exact hmod
  have hdvd : sr ∣ x % sr + skip := Nat.dvd_of_mod_eq_zero hmod'
  obtain ⟨c, hc⟩ := hdvd
  have hcases : c = 0 ∨ c = 1 := by
    by_contra hcc
    push_neg at hcc
    have h2 : 2 ≤ c := by omega
    have : sr * 2 ≤ sr * c := Nat.mul_le_mul_left sr h2
    omega
  unfold canShift
  rcases hcases with h0 | h1
  · subst h0
    simp at hc
    have hx0 : x % sr = 0 := by omega
    have hs0 : skip = 0 := by omega
    rw [hx0, hs0, Nat.sub_zero, Nat.mod_self]
  · subst h1
    simp at hc
    have : sr - x % sr = skip := by omega
    rw [this, Nat.mod_eq_of_lt hskip]

theorem nodup_getD_inj {l : List Nat} (h : l.Nodup) {i j : Nat}
    (hi : i < l.length) (hj : j < l.length) (he : l.getD i 0 = l.getD j 0) : i = j := by
  rw [List.getD_eq_getElem l 0 hi, List.getD_eq_getElem l 0 hj] at he
  exact h.getElem_inj_iff.mp he

theorem nodup_bounded_length {l : List Nat} {N : Nat} (h : l.Nodup)
    (hb : ∀ x ∈ l, x < N) : l.length ≤ N := by
  have h1 : l.toFinset.card = l.length := List.toFinset_card_of_nodup h
  have h2 : l.toFinset ⊆ Finset.range N := by
    intro x hx
    rw [List.mem_toFinset] at hx
    rw [Finset.mem_range]
    exact hb x hx
  have h3 := Finset.card_le_card h2
  rw [h1, Finset.card_range] at h3
  exact h3

theorem getD_drop (l : List Nat) (n j : Nat) (h : j < l.length - n) :
    (l.drop n).getD j 0 = l.getD (n + j) 0 := by
  have h1 : j < (l.drop n).length := by simp; omega
  have h2 : n + j < l.length := by omega
  rw [List.getD_eq_getElem _ 0 h1, List.getD_eq_getElem _ 0 h2]
  exact List.getElem_drop l

theorem mem_iff_exists_getD {l : List Nat} {v : Nat} :
    v ∈ l ↔ ∃ i, i < l.length ∧ l.getD i 0 = v := by
  constructor
  · intro h
    obtain ⟨i, hi, he⟩ := List.mem_iff_getElem.mp h
    exact ⟨i, hi, by rw [List.getD_eq_getElem l 0 hi]; exact he⟩
  · rintro ⟨i, hi, he⟩
    rw [← he, List.getD_eq_getElem l 0 hi]
    exact List.getElem_mem hi

theorem mem_ilLocations {q : List Nat} {loc : Nat} :
    loc ∈ ilLocations q ↔
      loc < q.length ∧ (q.getD loc 0 = charI ∨ q.getD loc 0 = charL) := by
  unfold ilLocations
  rw [List.mem_filter, List.mem_range]
  simp

theorem ilLocations_pairwise (q : List Nat) : (ilLocations q).Pairwise (· < ·) :=
  List.Pairwise.filter _ (List.pairwise_lt_range q.length)

theorem mem_dropWhile_lt {l : List Nat} (hs : l.Pairwise (· < ·)) (k x : Nat) :
    x ∈ l.dropWhile (fun y => decide (y < k)) ↔ x ∈ l ∧ k ≤ x := by
  induction l with
  | nil => simp [List.dropWhile]
  | cons a t ih =>
    rw [List.pairwise_cons] at hs
    obtain ⟨ha, ht⟩ := hs
    by_cases hak : a < k
    · rw [List.dropWhile_cons_of_pos (by simpa using hak), ih ht]
      constructor
      · rintro ⟨h1, h2⟩
        exact ⟨List.mem_cons_of_mem a h1, h2⟩
      · rintro ⟨h1, h2⟩
        rcases List.mem_cons.mp h1 with h | h
        · omega
        · exact ⟨h, h2⟩
    · rw [List.dropWhile_cons_of_neg (by simpa using hak)]
      constructor
      · intro h1
        refine ⟨h1, ?_⟩
        rcases List.mem_cons.mp h1 with h | h
        · omega
        · have := ha x h
          omega
      · rintro ⟨h1, _⟩
        exact h1

theorem eq_of_normIL_eq_of_not_il {a b : Nat} (h : normIL a = normIL b)
    (ha1 : a ≠ charI) (ha2 : a ≠ charL) : a = b := by
  unfold normIL charI charL at *
  split_ifs at h <;> omega

theorem charMatchB_true_iff (a b : Nat) : charMatchB true a b = true ↔ ilMatch a b = true := by
  unfold charMatchB ilMatch
  simp only [if_true, Bool.or_eq_true, Bool.and_eq_true, beq_iff_eq]
  tauto

theorem charMatchB_false_iff (a b : Nat) : charMatchB false a b = true ↔ a = b := by
  unfold charMatchB
  simp

/-- An occurrence of the query at `x` makes the dropped query an I≡L
prefix of the suffix at `x + skip`. -/
theorem isPref_of_occurs {s : Searcher} {q : List Nat} {equateIl : Bool} {x skip : Nat}
    (hskip : skip ≤ q.length) (hocc : occursAt s.text q equateIl x) :
    IsPref (qNorm (q.drop skip)) (normSuffix s.text (x + skip)) := by
  obtain ⟨hlen, hag⟩ := hocc
  rw [isPref_iff]
  constructor
  · rw [qNorm_length, List.length_drop, normSuffix_length]
    omega
  · intro k hk
    have hk' : k < q.length - skip := by
      rw [qNorm_length, List.length_drop] at hk
      omega
    rw [qNorm_getD _ k (by simp; omega), getD_drop q skip k hk',
      normSuffix_getD s.text (x + skip) k (by omega)]
    have hag' := hag (skip + k) (by omega)
    have hidx : x + skip + k = x + (skip + k) := by omega
    rw [hidx]
    cases equateIl with
    | false =>
      simp only [Bool.false_eq_true, if_false] at hag'
      rw [hag']
    | true =>
      simp only [eq_self_iff_true, if_true] at hag'
      exact (ilMatch_iff_normIL_eq _ _).mp hag'

/-- The candidate filter of `search_matching_suffixes` (minus the tryptic
gate) accepts a bounds candidate exactly when the full query occurs at
the reported offset. -/
theorem keep_iff_occurs (s : Searcher) (q : List Nat) (equateIl : Bool) (skip v : Nat)
    (hskip : skip < q.length) (hv : skip ≤ v)
    (hpref : IsPref (qNorm (q.drop skip)) (normSuffix s.text v)) :
    (keepCandidate s q equateIl false skip
        ((ilLocations q).dropWhile (fun l => decide (l < skip))) v = true) ↔
      occursAt s.text q equateIl (v - skip) := by
  rw [isPref_iff] at hpref
  obtain ⟨hplen, hpag⟩ := hpref
  rw [qNorm_length, List.length_drop, normSuffix_length] at hplen
  have hvN : v < s.text.length := by omega
  have hpag' : ∀ k, k < q.length - skip →
      normIL (q.getD (skip + k) 0) = normIL (tGet s.text (v + k)) := by
    intro k hk
    have h0 := hpag k (by rw [qNorm_length, List.length_drop]; omega)
    rwa [qNorm_getD _ k (by simp; omega), getD_drop q skip k hk,
      normSuffix_getD s.text v k (by omega)] at h0
  have hlenocc : v - skip + q.length ≤ s.text.length := by omega
  -- the prefix check, pointwise
  have hcp : (checkPrefix (q.take skip) s.text (v - skip) v equateIl = true) ↔
      ∀ k, k < skip → charMatchB equateIl (q.getD k 0) (tGet s.text (v - skip + k)) = true := by
    unfold checkPrefix equalsSlice
    have hlt : min (q.take skip).length (v - (v - skip)) = skip := by
      simp only [List.length_take]
      omega
    rw [hlt, List.all_eq_true]
    constructor
    · intro h k hk
      have := h k (List.mem_range.mpr hk)
      rwa [getD_take_of_lt hk (by omega)] at this
    · intro h k hk
      rw [List.mem_range] at hk
      rw [getD_take_of_lt hk (by omega)]
      exact h k hk
  -- the I/L location check, pointwise
  have hcs : (checkIlLocationsM s.text v skip
      ((ilLocations q).dropWhile (fun l => decide (l < skip))) (q.drop skip) = true) ↔
      ∀ loc, loc ∈ ilLocations q → skip ≤ loc →
        q.getD loc 0 = tGet s.text (v - skip + loc) := by
    unfold checkIlLocationsM
    rw [List.all_eq_true]
    constructor
    · intro h loc hmem hle
      have hloc := h loc ((mem_dropWhile_lt (ilLocations_pairwise q) skip loc).mpr ⟨hmem, hle⟩)
      rw [beq_iff_eq] at hloc
      have hlq : loc < q.length := (mem_ilLocations.mp hmem).1
      rwa [getD_drop q skip (loc - skip) (by omega),
        (by omega : skip + (loc - skip) = loc),
        (by omega : v + (loc - skip) = v - skip + loc)] at hloc
    · intro h loc hmem
      rw [mem_dropWhile_lt (ilLocations_pairwise q) skip loc] at hmem
      obtain ⟨hmem, hle⟩ := hmem
      have hlq : loc < q.length := (mem_ilLocations.mp hmem).1
      rw [beq_iff_eq, getD_drop q skip (loc - skip) (by omega),
        (by omega : skip + (loc - skip) = loc),
        (by omega : v + (loc - skip) = v - skip + loc)]
      exact h loc hmem hle
  unfold keepCandidate checkSuffix
  simp only [Bool.not_false, Bool.true_or, Bool.and_true, Bool.and_eq_true,
    Bool.or_eq_true, beq_iff_eq]
  cases equateIl with
  | true =>
    simp only [eq_self_iff_true, if_true, and_true]
    constructor
    · rintro hpre
      refine ⟨hlenocc, ?_⟩
      intro k hk
      simp only [eq_self_iff_true, if_true]
      by_cases hks : k < skip
      · rcases hpre with hs0 | hcp'
        · omega
        · have := hcp.mp hcp' k hks
          rwa [charMatchB_true_iff] at this
      · rw [ilMatch_iff_normIL_eq]
        have := hpag' (k - skip) (by omega)
        rwa [(by omega : skip + (k - skip) = k),
          (by omega : v + (k - skip) = v - skip + k)] at this
    · rintro ⟨_, hag⟩
      rcases Nat.eq_zero_or_pos skip with hs0 | hspos
      · exact Or.inl hs0
      · refine Or.inr (hcp.mpr ?_)
        intro k hk
        rw [charMatchB_true_iff]
        have := hag k (by omega)
        simpa using this
  | false =>
    simp only [Bool.false_eq_true, if_false]
    constructor
    · rintro ⟨hpre, hil⟩
      refine ⟨hlenocc, ?_⟩
      intro k hk
      simp only [Bool.false_eq_true, if_false]
      by_cases hks : k < skip
      · rcases hpre with hs0 | hcp'
        · omega
        · have := hcp.mp hcp' k hks
          rwa [charMatchB_false_iff] at this
      · have hnorm := hpag' (k - skip) (by omega)
        rw [(by omega : skip + (k - skip) = k),
          (by omega : v + (k - skip) = v - skip + k)] at hnorm
        by_cases hkil : q.getD k 0 = charI ∨ q.getD k 0 = charL
        · exact hcs.mp hil k (mem_ilLocations.mpr ⟨by omega, hkil⟩) (by omega)
        · push_neg at hkil
          exact eq_of_normIL_eq_of_not_il hnorm hkil.1 hkil.2
    · rintro ⟨_, hag⟩
      constructor
      · rcases Nat.eq_zero_or_pos skip with hs0 | hspos
        · exact Or.inl hs0
        · refine Or.inr (hcp.mpr ?_)
          intro k hk
          rw [charMatchB_false_iff]
          have := hag k (by omega)
          simpa using this
      · refine hcs.mpr ?_
        intro loc hmem _
        have hlq : loc < q.length := (mem_ilLocations.mp hmem).1
        have := hag loc hlq
        simpa using this

/-- From an occurrence at `x` whose canonical shift is `skip`, to the SA
slot holding `x + skip`, which the bound search must report. -/
theorem occ_slot (s : Searcher) (q : List Nat) (equateIl : Bool) (skip x : Nat)
    (hva : ∀ v, v ∈ s.saVals ↔ (v < s.text.length ∧ v % s.sampleRate = 0))
    (hskip : skip < q.length)
    (hocc : occursAt s.text q equateIl x) (hcs : canShift s.sampleRate x = skip)
    (hsr : 0 < s.sampleRate) :
    ∃ i, i < s.saVals.length ∧ saGet s i = x + skip ∧ qPrefixAt s (q.drop skip) i := by
  have hvN : x + skip < s.text.length := by
    obtain ⟨hlen, _⟩ := hocc
    omega
  have hmod : (x + skip) % s.sampleRate = 0 := by
    rw [← hcs]
    exact canShift_spec hsr x
  have hmem : (x + skip) ∈ s.saVals := (hva _).mpr ⟨hvN, hmod⟩
  obtain ⟨i, hi, hgi⟩ := mem_iff_exists_getD.mp hmem
  refine ⟨i, hi, hgi, ?_⟩
  rw [qPrefixAt_def]
  unfold uAt
  show IsPref (qNorm (q.drop skip)) (normSuffix s.text (saGet s i))
  rw [show saGet s i = x + skip from hgi]
  exact isPref_of_occurs (by omega) hocc

/-- Invariant of the inner scan of one `skip` pass: the accumulator holds
exactly the occurrences found at earlier shifts plus, for the current
shift, those whose SA slot has already been scanned. -/
def InnerAcc (s : Searcher) (q : List Nat) (equateIl : Bool) (skip lo n : Nat)
    (acc : List Nat) : Prop :=
  acc.Nodup ∧
  ∀ x, x ∈ acc ↔ (occursAt s.text q equateIl x ∧
    (canShift s.sampleRate x < skip ∨
      (canShift s.sampleRate x = skip ∧ ∃ i, i < n ∧ lo ≤ i ∧ saGet s i = x + skip)))

theorem innerLoopF_c1 (s : Searcher) (q : List Nat) (equateIl : Bool)
    (maxM skip lo hi : Nat)
    (hNodup : s.saVals.Nodup)
    (hva : ∀ v, v ∈ s.saVals ↔ (v < s.text.length ∧ v % s.sampleRate = 0))
    (hsr : skip < s.sampleRate)
    (hskipq : skip < q.length)
    (hhi : hi ≤ s.saVals.length)
    (hmax : s.text.length < maxM)
    (hchar : ∀ i, i < s.saVals.length →
      ((lo ≤ i ∧ i < hi) ↔ qPrefixAt s (q.drop skip) i)) :
    ∀ (fuel saIndex : Nat) (acc : List Nat),
      hi - saIndex ≤ fuel → lo ≤ saIndex → saIndex ≤ hi →
      InnerAcc s q equateIl skip lo saIndex acc →
      ∃ acc', innerLoopF s q maxM equateIl false skip
          ((ilLocations q).dropWhile (fun l => decide (l < skip))) hi fuel saIndex acc
          = Sum.inr acc' ∧ InnerAcc s q equateIl skip lo hi acc' := by
  intro fuel
  induction fuel with
  | zero =>
    intro saIndex acc hfuel hlo hhi' hacc
    have : saIndex = hi := by omega
    subst this
    exact ⟨acc, rfl, hacc⟩
  | succ fuel ih =>
    intro saIndex acc hfuel hlo hhi' hacc
    obtain ⟨hnd, hmem⟩ := hacc
    by_cases hlt : saIndex < hi
    · have hvmem : saGet s saIndex ∈ s.saVals := getD_mem (by omega)
      obtain ⟨hvN, hvmod⟩ := (hva _).mp hvmem
      have hPref : qPrefixAt s (q.drop skip) saIndex :=
        (hchar saIndex (by omega)).mp ⟨by omega, hlt⟩
      by_cases hvskip : skip ≤ saGet s saIndex
      · have hkiff := keep_iff_occurs s q equateIl skip (saGet s saIndex) hskipq hvskip
          ((qPrefixAt_def s (q.drop skip) saIndex).mp hPref)
        by_cases hkeep : keepCandidate s q equateIl false skip
            ((ilLocations q).dropWhile (fun l => decide (l < skip))) (saGet s saIndex) = true
        · -- candidate kept and pushed, the cap is unreachable
          have hocc : occursAt s.text q equateIl (saGet s saIndex - skip) := hkiff.mp hkeep
          have hcsx : canShift s.sampleRate (saGet s saIndex - skip) = skip :=
            canShift_eq hsr (by
              rw [(by omega : saGet s saIndex - skip + skip = saGet s saIndex)]
              exact hvmod)
          have hnotin : saGet s saIndex - skip ∉ acc := by
            intro hin
            rcases ((hmem _).mp hin).2 with hlt' | ⟨_, i, hi', hloi, hgi⟩
            · omega
            · have : i = saIndex := nodup_getD_inj hNodup (by omega) (by omega)
                (by show saGet s i = saGet s saIndex; omega)
              omega
          have hnd' : (acc ++ [saGet s saIndex - skip]).Nodup := by
            rw [List.nodup_append]
            exact ⟨hnd, List.nodup_singleton _, by simpa using hnotin⟩
          have hbnd : ∀ x ∈ acc ++ [saGet s saIndex - skip], x < s.text.length := by
            intro x hx
            rcases List.mem_append.mp hx with hx | hx
            · obtain ⟨hl, _⟩ := ((hmem x).mp hx).1
              omega
            · rw [List.mem_singleton] at hx
              omega
          have hcap : ¬ (maxM ≤ (acc ++ [saGet s saIndex - skip]).length) := by
            have := nodup_bounded_length hnd' hbnd
            omega
          have hstep : innerLoopF s q maxM equateIl false skip
              ((ilLocations q).dropWhile (fun l => decide (l < skip))) hi (fuel + 1) saIndex acc =
              innerLoopF s q maxM equateIl false skip
                ((ilLocations q).dropWhile (fun l => decide (l < skip))) hi fuel (saIndex + 1)
                (acc ++ [saGet s saIndex - skip]) := by
            simp only [innerLoopF, if_pos hlt, if_pos hvskip, hkeep, if_true, if_neg hcap]
          rw [hstep]
          refine ih (saIndex + 1) _ (by omega) (by omega) (by omega) ⟨hnd', ?_⟩
          intro x
          rw [List.mem_append, List.mem_singleton, hmem x]
          constructor
          · rintro (⟨ho, hc⟩ | hx)
            · refine ⟨ho, ?_⟩
              rcases hc with h | ⟨h1, i, hi', hloi, hgi⟩
              · exact Or.inl h
              · exact Or.inr ⟨h1, i, by omega, hloi, hgi⟩
            · subst hx
              exact ⟨hocc, Or.inr ⟨hcsx, saIndex, by omega, hlo, by omega⟩⟩
          · rintro ⟨ho, h | ⟨h1, i, hi', hloi, hgi⟩⟩
            · exact Or.inl ⟨ho, Or.inl h⟩
            · rcases Nat.lt_or_ge i saIndex with hisa | hisa
              · exact Or.inl ⟨ho, Or.inr ⟨h1, i, hisa, hloi, hgi⟩⟩
              · have : i = saIndex := by omega
                subst this
                exact Or.inr (by omega)
        · -- candidate rejected: the scanned slot yields no occurrence
          have hstep : innerLoopF s q maxM equateIl false skip
              ((ilLocations q).dropWhile (fun l => decide (l < skip))) hi (fuel + 1) saIndex acc =
              innerLoopF s q maxM equateIl false skip
                ((ilLocations q).dropWhile (fun l => decide (l < skip))) hi fuel (saIndex + 1) acc := by
            have hkeep' : keepCandidate s q equateIl false skip
                ((ilLocations q).dropWhile (fun l => decide (l < skip))) (saGet s saIndex) = false := by
              simpa using hkeep
            simp only [innerLoopF, if_pos hlt, if_pos hvskip, hkeep', Bool.false_eq_true, if_false]
          rw [hstep]
          refine ih (saIndex + 1) _ (by omega) (by omega) (by omega) ⟨hnd, ?_⟩
          intro x
          rw [hmem x]
          constructor
          · rintro ⟨ho, h | ⟨h1, i, hi', hloi, hgi⟩⟩
            · exact ⟨ho, Or.inl h⟩
            · exact ⟨ho, Or.inr ⟨h1, i, by omega, hloi, hgi⟩⟩
          · rintro ⟨ho, h | ⟨h1, i, hi', hloi, hgi⟩⟩
            · exact ⟨ho, Or.inl h⟩
            · rcases Nat.lt_or_ge i saIndex with hisa | hisa
              · exact ⟨ho, Or.inr ⟨h1, i, hisa, hloi, hgi⟩⟩
              · exfalso
                have hieq : i = saIndex := by omega
                rw [hieq] at hgi
                have hx : x = saGet s saIndex - skip := by omega
                rw [hx] at ho
                exact hkeep (hkiff.mpr ho)
      · -- suffix value below the current shift: skipped
        have hstep : innerLoopF s q maxM equateIl false skip
            ((ilLocations q).dropWhile (fun l => decide (l < skip))) hi (fuel + 1) saIndex acc =
            innerLoopF s q maxM equateIl false skip
              ((ilLocations q).dropWhile (fun l => decide (l < skip))) hi fuel (saIndex + 1) acc := by
          simp only [innerLoopF, if_pos hlt, if_neg hvskip]
        rw [hstep]
        refine ih (saIndex + 1) _ (by omega) (by omega) (by omega) ⟨hnd, ?_⟩
        intro x
        rw [hmem x]
        constructor
        · rintro ⟨ho, h | ⟨h1, i, hi', hloi, hgi⟩⟩
          · exact ⟨ho, Or.inl h⟩
          · exact ⟨ho, Or.inr ⟨h1, i, by omega, hloi, hgi⟩⟩
        · rintro ⟨ho, h | ⟨h1, i, hi', hloi, hgi⟩⟩
          · exact ⟨ho, Or.inl h⟩
          · rcases Nat.lt_or_ge i saIndex with hisa | hisa
            · exact ⟨ho, Or.inr ⟨h1, i, hisa, hloi, hgi⟩⟩
            · exfalso
              have : i = saIndex := by omega
              subst this
              omega
    · have hstep : innerLoopF s q maxM equateIl false skip
          ((ilLocations q).dropWhile (fun l => decide (l < skip))) hi (fuel + 1) saIndex acc =
          Sum.inr acc := by
        simp only [innerLoopF, if_neg hlt]
      rw [show saIndex = hi by omega] at hmem
      exact ⟨acc, hstep, hnd, hmem⟩

/-- Invariant between passes of the outer loop: the accumulator holds
exactly the occurrences whose canonical shift has been processed. -/
def OuterAcc (s : Searcher) (q : List Nat) (equateIl : Bool) (skip : Nat)
    (acc : List Nat) : Prop :=
  acc.Nodup ∧
  ∀ x, x ∈ acc ↔ (occursAt s.text q equateIl x ∧ canShift s.sampleRate x < skip)

theorem outerLoopF_c1 (s : Searcher) (q : List Nat) (equateIl : Bool) (maxM : Nat)
    (hsorted : Sorted s) (hterm : TermText s)
    (hqcanon : ∀ c ∈ q, isCanonAA c)
    (hNodup : s.saVals.Nodup)
    (hva : ∀ v, v ∈ s.saVals ↔ (v < s.text.length ∧ v % s.sampleRate = 0))
    (hlen : s.sampleRate ≤ q.length)
    (hsr0 : 0 < s.sampleRate)
    (hmax : s.text.length < maxM) :
    ∀ (fuel skip : Nat) (acc : List Nat),
      s.sampleRate - skip ≤ fuel →
      OuterAcc s q equateIl skip acc →
      ∃ accF, outerLoopF s q maxM equateIl false fuel skip acc =
          (if accF.isEmpty then SearchAllSuffixesResult.NoMatches
           else SearchAllSuffixesResult.SearchResult accF) ∧
        accF.Nodup ∧ ∀ x, x ∈ accF ↔ occursAt s.text q equateIl x := by
  have hrange : InRange s := fun v hv => ((hva v).mp hv).1
  have hcanonT : NoTermQ q := fun c hc => isCanonAA_ne_term (hqcanon c hc)
  intro fuel
  induction fuel with
  | zero =>
    intro skip acc hfuel hacc
    obtain ⟨hnd, hmem⟩ := hacc
    have hge : s.sampleRate ≤ skip := by omega
    refine ⟨acc, by simp only [outerLoopF], hnd, ?_⟩
    intro x
    rw [hmem x]
    constructor
    · exact fun h => h.1
    · intro h
      exact ⟨h, by have := canShift_lt hsr0 x; omega⟩
  | succ fuel ih =>
    intro skip acc hfuel hacc
    obtain ⟨hnd, hmem⟩ := hacc
    by_cases hlt : skip < s.sampleRate
    · have hq' : q.drop skip ≠ [] := by
        intro h
        have := congrArg List.length h
        simp at this
        omega
      have hcanon' : NoTermQ (q.drop skip) := fun c hc =>
        hcanonT c (List.mem_of_mem_drop hc)
      obtain ⟨hNMiff, hSRspec⟩ :=
        searchBounds_spec s (q.drop skip) hsorted hrange hterm hcanon' hq'
      rcases hsbeq : s.searchBounds (q.drop skip) with _ | ⟨lo, hi⟩
      · -- no slot starts with the dropped query: nothing at this shift
        have hnoP := hNMiff.mp hsbeq
        have hstep : outerLoopF s q maxM equateIl false (fuel + 1) skip acc =
            outerLoopF s q maxM equateIl false fuel (skip + 1) acc := by
          simp only [outerLoopF, if_pos hlt, hsbeq]
        rw [hstep]
        refine ih (skip + 1) acc (by omega) ⟨hnd, ?_⟩
        intro x
        rw [hmem x]
        constructor
        · rintro ⟨ho, hc⟩
          exact ⟨ho, by omega⟩
        · rintro ⟨ho, hc⟩
          refine ⟨ho, ?_⟩
          rcases Nat.lt_or_ge (canShift s.sampleRate x) skip with h | h
          · exact h
          · exfalso
            have hcs : canShift s.sampleRate x = skip := by omega
            obtain ⟨i, hiL, _, hPi⟩ :=
              occ_slot s q equateIl skip x hva (by omega) ho hcs hsr0
            exact hnoP i hiL hPi
      · -- a block of slots carries the dropped query
        obtain ⟨hhi, hchar⟩ := hSRspec lo hi hsbeq
        have halohi : lo ≤ hi := by
          by_contra hcon
          push_neg at hcon
          have hne : s.searchBounds (q.drop skip) ≠ BoundSearchResult.NoMatches := by
            rw [hsbeq]
            intro h; cases h
          have : ¬ ∀ i, i < s.saVals.length → ¬ qPrefixAt s (q.drop skip) i := by
            intro h
            exact hne (hNMiff.mpr h)
          push_neg at this
          obtain ⟨i₀, hi₀, hP₀⟩ := this
          have := (hchar i₀ hi₀).mpr hP₀
          omega
        have hinit : ∀ x, x ∈ acc ↔
            (occursAt s.text q equateIl x ∧
              (canShift s.sampleRate x < skip ∨
                (canShift s.sampleRate x = skip ∧
                  ∃ i, i < lo ∧ lo ≤ i ∧ saGet s i = x + skip))) := by
          intro x
          rw [hmem x]
          constructor
          · rintro ⟨ho, hc⟩
            exact ⟨ho, Or.inl hc⟩
          · rintro ⟨ho, hc | ⟨_, i, hi', hloi, _⟩⟩
            · exact ⟨ho, hc⟩
            · omega
        obtain ⟨accI, hinner, hinnerAcc⟩ :=
          innerLoopF_c1 s q equateIl maxM skip lo hi hNodup hva hlt (by omega) hhi hmax
            (fun i hiL => hchar i hiL) hi lo acc (by omega)
            (le_rfl) halohi ⟨hnd, hinit⟩
        have hstep : outerLoopF s q maxM equateIl false (fuel + 1) skip acc =
            outerLoopF s q maxM equateIl false fuel (skip + 1) accI := by
          simp only [outerLoopF, if_pos hlt, hsbeq, hinner]
        rw [hstep]
        obtain ⟨hndI, hmemI⟩ := hinnerAcc
        refine ih (skip + 1) accI (by omega) ⟨hndI, ?_⟩
        intro x
        rw [hmemI x]
        constructor
        · rintro ⟨ho, hc | ⟨hcs, _⟩⟩
          · exact ⟨ho, by omega⟩
          · exact ⟨ho, by omega⟩
        · rintro ⟨ho, hc⟩
          rcases Nat.lt_or_ge (canShift s.sampleRate x) skip with h | h
          · exact ⟨ho, Or.inl h⟩
          · have hcs : canShift s.sampleRate x = skip := by omega
            obtain ⟨i, hiL, hgi, hPi⟩ :=
              occ_slot s q equateIl skip x hva (by omega) ho hcs hsr0
            have hrangei := (hchar i hiL).mpr hPi
            exact ⟨ho, Or.inr ⟨hcs, i, by omega, by omega, hgi⟩⟩
    · have hstep : outerLoopF s q maxM equateIl false (fuel + 1) skip acc =
          (if acc.isEmpty then SearchAllSuffixesResult.NoMatches
           else SearchAllSuffixesResult.SearchResult acc) := by
        simp only [outerLoopF, if_neg hlt]
      refine ⟨acc, hstep, hnd, ?_⟩
      intro x
      rw [hmem x]
      constructor
      · exact fun h => h.1
      · intro h
        exact ⟨h, by have := canShift_lt hsr0 x; omega⟩

/-! ## The sparse search returns exactly the occurrence set -/

theorem searchMatchingSuffixes_exact (s : Searcher) (q : List Nat) (equateIl : Bool)
    (maxM : Nat)
    (hsorted : Sorted s) (hterm : TermText s)
    (hqcanon : ∀ c ∈ q, isCanonAA c)
    (hNodup : s.saVals.Nodup)
    (hva : ∀ v, v ∈ s.saVals ↔ (v < s.text.length ∧ v % s.sampleRate = 0))
    (hlen : s.sampleRate ≤ q.length)
    (hsr0 : 0 < s.sampleRate)
    (hmax : s.text.length < maxM) :
    ∃ accF, s.searchMatchingSuffixes q maxM equateIl false =
        (if accF.isEmpty then SearchAllSuffixesResult.NoMatches
         else SearchAllSuffixesResult.SearchResult accF) ∧
      accF.Nodup ∧ ∀ x, x ∈ accF ↔ occursAt s.text q equateIl x := by
  have hinit : OuterAcc s q equateIl 0 [] := by
    refine ⟨List.nodup_nil, ?_⟩
    intro x
    constructor
    · intro h
      exact absurd h (List.not_mem_nil x)
    · rintro ⟨_, h⟩
      omega
  obtain ⟨accF, heq, hnd, hmem⟩ :=
    outerLoopF_c1 s q equateIl maxM hsorted hterm hqcanon hNodup hva hlen hsr0 hmax
      s.sampleRate 0 [] (by omega) hinit
  exact ⟨accF, heq, hnd, hmem⟩

theorem resultList_of_exact {s : Searcher} {q : List Nat} {equateIl : Bool}
    {maxM : Nat} {accF : List Nat}
    (heq : s.searchMatchingSuffixes q maxM equateIl false =
      (if accF.isEmpty then SearchAllSuffixesResult.NoMatches
       else SearchAllSuffixesResult.SearchResult accF)) :
    resultList (s.searchMatchingSuffixes q maxM equateIl false) = accF := by
  rw [heq]
  cases accF with
  | nil => simp [resultList]
  | cons a as => simp [resultList]

/-! ## Distinctness of the returned offsets (no sortedness needed) -/

theorem bsLoopF_range (s : Searcher) (bound : BoundSearch) (q : List Nat) :
    ∀ (fuel left right lcpL lcpR : Nat) (found : Bool),
      left < right →
      ∃ l' r' cl' cr' f',
        bsLoopF s bound q fuel left right lcpL lcpR found = (l', r', cl', cr', f') ∧
        left ≤ l' ∧ l' < r' ∧ r' ≤ right := by
  intro fuel
  induction fuel with
  | zero =>
    intro left right lcpL lcpR found hlr
    exact ⟨left, right, lcpL, lcpR, found, rfl, le_rfl, hlr, le_rfl⟩
  | succ fuel ih =>
    intro left right lcpL lcpR found hlr
    by_cases hgap : right - left > 1
    · simp only [bsLoopF, if_pos hgap]
      split
      · obtain ⟨l', r', cl', cr', f', heq, h1, h2, h3⟩ :=
          ih left ((left + right) / 2) lcpL
            (s.compare q (saGet s ((left + right) / 2)) (min lcpL lcpR) bound).2
            (found || ((s.compare q (saGet s ((left + right) / 2)) (min lcpL lcpR) bound).2 == q.length))
            (by omega)
        exact ⟨l', r', cl', cr', f', heq, h1, h2, by omega⟩
      · obtain ⟨l', r', cl', cr', f', heq, h1, h2, h3⟩ :=
          ih ((left + right) / 2) right
            (s.compare q (saGet s ((left + right) / 2)) (min lcpL lcpR) bound).2 lcpR
            (found || ((s.compare q (saGet s ((left + right) / 2)) (min lcpL lcpR) bound).2 == q.length))
            (by omega)
        exact ⟨l', r', cl', cr', f', heq, by omega, h2, h3⟩
    · exact ⟨left, right, lcpL, lcpR, found, by simp [bsLoopF, hgap], le_rfl, hlr, le_rfl⟩

theorem binarySearchBound_found_L0 (s : Searcher) (bound : BoundSearch) (q : List Nat)
    (hL : s.saVals.length = 0) :
    (s.binarySearchBound bound q).1 = false := by
  unfold Searcher.binarySearchBound
  rw [hL]
  have hloop : bsLoopF s bound q (0 + 1) 0 0 0 0 false = (0, 0, 0, 0, false) := rfl
  rw [hloop]
  cases bound <;> rfl

theorem binarySearchBound_max_lt (s : Searcher) (q : List Nat)
    (hL : 0 < s.saVals.length) :
    (s.binarySearchBound BoundSearch.Maximum q).2 < s.saVals.length := by
  obtain ⟨l', r', cl', cr', f', heq, h1, h2, h3⟩ :=
    bsLoopF_range s BoundSearch.Maximum q (s.saVals.length + 1) 0 s.saVals.length 0 0 false hL
  unfold Searcher.binarySearchBound
  rw [heq]
  dsimp only
  split <;> omega

theorem searchBounds_range (s : Searcher) (q : List Nat) (lo hi : Nat)
    (h : s.searchBounds q = BoundSearchResult.SearchResult (lo, hi)) :
    hi ≤ s.saVals.length := by
  unfold Searcher.searchBounds at h
  by_cases hmin : (s.binarySearchBound BoundSearch.Minimum q).1 = true
  · simp only [hmin, Bool.not_true, Bool.false_eq_true, if_false] at h
    rcases Nat.eq_zero_or_pos s.saVals.length with hL | hL
    · rw [binarySearchBound_found_L0 s BoundSearch.Minimum q hL] at hmin
      cases hmin
    · have hmax := binarySearchBound_max_lt s q hL
      cases h
      omega
  · rw [Bool.not_eq_true] at hmin
    simp only [hmin, Bool.not_false, if_true] at h
    cases h

/-- Distinctness invariant, independent of sortedness: every accumulated
offset is in range and tagged with the pass that produced it; offsets of
the current pass point at an already-scanned slot. -/
def DistinctAcc (s : Searcher) (skip n : Nat) (acc : List Nat) : Prop :=
  acc.Nodup ∧ ∀ x ∈ acc, x < s.text.length ∧
    (canShift s.sampleRate x < skip ∨
      (canShift s.sampleRate x = skip ∧ ∃ i, i < n ∧ saGet s i = x + skip))

theorem distinctAcc_mono {s : Searcher} {skip n n' : Nat} {acc : List Nat}
    (h : DistinctAcc s skip n acc) (hn : n ≤ n') : DistinctAcc s skip n' acc := by
  obtain ⟨hnd, hmem⟩ := h
  refine ⟨hnd, fun x hx => ?_⟩
  obtain ⟨hxr, hc | ⟨hcs, i, hin, hgi⟩⟩ := hmem x hx
  · exact ⟨hxr, Or.inl hc⟩
  · exact ⟨hxr, Or.inr ⟨hcs, i, by omega, hgi⟩⟩

theorem innerLoopF_c10 (s : Searcher) (q : List Nat) (equateIl tryptic : Bool)
    (maxM skip : Nat) (ilCur : List Nat) (hiB : Nat)
    (hNodup : s.saVals.Nodup)
    (hva : ∀ v ∈ s.saVals, v < s.text.length ∧ v % s.sampleRate = 0)
    (hsr : skip < s.sampleRate)
    (hhi : hiB ≤ s.saVals.length) :
    ∀ (fuel saIndex : Nat) (acc : List Nat),
      DistinctAcc s skip saIndex acc →
      DistinctAcc s skip (max saIndex hiB)
        (Sum.elim id id (innerLoopF s q maxM equateIl tryptic skip ilCur hiB fuel saIndex acc)) := by
  intro fuel
  induction fuel with
  | zero =>
    intro saIndex acc hacc
    exact distinctAcc_mono hacc (by omega)
  | succ fuel ih =>
    intro saIndex acc hacc
    obtain ⟨hnd, hmem⟩ := hacc
    by_cases hidx : saIndex < hiB
    · have hvmem : saGet s saIndex ∈ s.saVals := getD_mem (by omega)
      obtain ⟨hvN, hvmod⟩ := hva _ hvmem
      by_cases hskv : skip ≤ saGet s saIndex
      · by_cases hkeep : keepCandidate s q equateIl tryptic skip ilCur (saGet s saIndex) = true
        · have hp : canShift s.sampleRate (saGet s saIndex - skip) = skip := by
            refine canShift_eq hsr ?_
            rw [show saGet s saIndex - skip + skip = saGet s saIndex by omega]
            exact hvmod
          have hnotmem : saGet s saIndex - skip ∉ acc := by
            intro hmem'
            obtain ⟨_, hc | ⟨hcs, i, hin, hgi⟩⟩ := hmem _ hmem'
            · omega
            · have hsg : saGet s i = saGet s saIndex := by
                rw [hgi]; omega
              have := nodup_getD_inj hNodup (by omega : i < s.saVals.length)
                (by omega : saIndex < s.saVals.length) hsg
              omega
          have hacc' : DistinctAcc s skip (saIndex + 1)
              (acc ++ [saGet s saIndex - skip]) := by
            refine ⟨?_, ?_⟩
            · simp only [List.nodup_append, List.nodup_cons, List.not_mem_nil,
                not_false_iff, List.nodup_nil, and_true, List.disjoint_singleton]
              exact ⟨hnd, trivial, hnotmem⟩
            · intro x hx
              rcases List.mem_append.mp hx with hx | hx
              · obtain ⟨h1, h2 | ⟨hcs, i, hin, hgi⟩⟩ := hmem x hx
                · exact ⟨h1, Or.inl h2⟩
                · exact ⟨h1, Or.inr ⟨hcs, i, by omega, hgi⟩⟩
              · rw [List.mem_singleton] at hx
                subst hx
                refine ⟨by omega, Or.inr ⟨hp, saIndex, by omega, by omega⟩⟩
          by_cases hcap : maxM ≤ (acc ++ [saGet s saIndex - skip]).length
          · have hcap' : maxM ≤ acc.length + 1 := by simpa using hcap
            have hstep : innerLoopF s q maxM equateIl tryptic skip ilCur hiB
                (fuel + 1) saIndex acc = Sum.inl (acc ++ [saGet s saIndex - skip]) := by
              simp [innerLoopF, hidx, hskv, hkeep, hcap']
            rw [hstep]
            exact distinctAcc_mono hacc' (by omega)
          · have hcap' : ¬ maxM ≤ acc.length + 1 := by simpa using hcap
            have hstep : innerLoopF s q maxM equateIl tryptic skip ilCur hiB
                (fuel + 1) saIndex acc =
                innerLoopF s q maxM equateIl tryptic skip ilCur hiB fuel (saIndex + 1)
                  (acc ++ [saGet s saIndex - skip]) := by
              simp [innerLoopF, hidx, hskv, hkeep, hcap']
            rw [hstep]
            exact distinctAcc_mono (ih (saIndex + 1) _ hacc') (by omega)
        · have hstep : innerLoopF s q maxM equateIl tryptic skip ilCur hiB
              (fuel + 1) saIndex acc =
              innerLoopF s q maxM equateIl tryptic skip ilCur hiB fuel (saIndex + 1) acc := by
            simp [innerLoopF, hidx, hskv, hkeep]
          rw [hstep]
          exact distinctAcc_mono (ih (saIndex + 1) acc
            (distinctAcc_mono ⟨hnd, hmem⟩ (by omega))) (by omega)
      · have hstep : innerLoopF s q maxM equateIl tryptic skip ilCur hiB
            (fuel + 1) saIndex acc =
            innerLoopF s q maxM equateIl tryptic skip ilCur hiB fuel (saIndex + 1) acc := by
          simp [innerLoopF, hidx, hskv]
        rw [hstep]
        exact distinctAcc_mono (ih (saIndex + 1) acc
          (distinctAcc_mono ⟨hnd, hmem⟩ (by omega))) (by omega)
    · have hstep : innerLoopF s q maxM equateIl tryptic skip ilCur hiB
          (fuel + 1) saIndex acc = Sum.inr acc := by
        simp [innerLoopF, hidx]
      rw [hstep]
      exact distinctAcc_mono ⟨hnd, hmem⟩ (by omega)

theorem outerLoopF_c10 (s : Searcher) (q : List Nat) (equateIl tryptic : Bool)
    (maxM : Nat)
    (hNodup : s.saVals.Nodup)
    (hva : ∀ v ∈ s.saVals, v < s.text.length ∧ v % s.sampleRate = 0) :
    ∀ (fuel skip : Nat) (acc : List Nat),
      acc.Nodup →
      (∀ x ∈ acc, x < s.text.length ∧ canShift s.sampleRate x < skip) →
      (resultList (outerLoopF s q maxM equateIl tryptic fuel skip acc)).Nodup ∧
        ∀ x ∈ resultList (outerLoopF s q maxM equateIl tryptic fuel skip acc),
          x < s.text.length := by
  intro fuel
  induction fuel with
  | zero =>
    intro skip acc hnd hmem
    cases acc with
    | nil => simp [outerLoopF, resultList]
    | cons a as =>
      simp only [outerLoopF, List.isEmpty_cons, Bool.false_eq_true, if_false, resultList]
      exact ⟨hnd, fun x hx => (hmem x hx).1⟩
  | succ fuel ih =>
    intro skip acc hnd hmem
    by_cases hlt : skip < s.sampleRate
    · rcases hsbeq : s.searchBounds (q.drop skip) with _ | ⟨lo, hi⟩
      · have hstep : outerLoopF s q maxM equateIl tryptic (fuel + 1) skip acc =
            outerLoopF s q maxM equateIl tryptic fuel (skip + 1) acc := by
          simp only [outerLoopF, if_pos hlt, hsbeq]
        rw [hstep]
        exact ih (skip + 1) acc hnd fun x hx =>
          ⟨(hmem x hx).1, by have := (hmem x hx).2; omega⟩
      · have hhiB : hi ≤ s.saVals.length := searchBounds_range s (q.drop skip) lo hi hsbeq
        have hinit : DistinctAcc s skip lo acc := by
          refine ⟨hnd, fun x hx => ⟨(hmem x hx).1, Or.inl (hmem x hx).2⟩⟩
        have hinner := innerLoopF_c10 s q equateIl tryptic maxM skip
          ((ilLocations q).dropWhile fun l => decide (l < skip)) hi hNodup hva hlt hhiB
          hi lo acc hinit
        rcases hres : innerLoopF s q maxM equateIl tryptic skip
            ((ilLocations q).dropWhile fun l => decide (l < skip)) hi hi lo acc with
          capped | acc'
        · rw [hres] at hinner
          obtain ⟨hndC, hmemC⟩ := hinner
          have hstep : outerLoopF s q maxM equateIl tryptic (fuel + 1) skip acc =
              SearchAllSuffixesResult.MaxMatches capped := by
            simp only [outerLoopF, if_pos hlt, hsbeq, hres]
          rw [hstep]
          exact ⟨by simpa [resultList] using hndC,
            fun x hx => (hmemC x (by simpa [resultList] using hx)).1⟩
        · rw [hres] at hinner
          obtain ⟨hndA, hmemA⟩ := hinner
          have hstep : outerLoopF s q maxM equateIl tryptic (fuel + 1) skip acc =
              outerLoopF s q maxM equateIl tryptic fuel (skip + 1) acc' := by
            simp only [outerLoopF, if_pos hlt, hsbeq, hres]
          rw [hstep]
          refine ih (skip + 1) acc' (by simpa using hndA) fun x hx => ?_
          obtain ⟨h1, h2 | ⟨h2, _⟩⟩ := hmemA x (by simpa using hx)
          · exact ⟨h1, by omega⟩
          · exact ⟨h1, by omega⟩
    · have hstep : outerLoopF s q maxM equateIl tryptic (fuel + 1) skip acc =
          (if acc.isEmpty then SearchAllSuffixesResult.NoMatches
           else SearchAllSuffixesResult.SearchResult acc) := by
        simp only [outerLoopF, if_neg hlt]
      rw [hstep]
      cases acc with
      | nil => simp [resultList]
      | cons a as =>
        simp only [List.isEmpty_cons, Bool.false_eq_true, if_false, resultList]
        exact ⟨hnd, fun x hx => (hmem x hx).1⟩

theorem searchMatchingSuffixes_distinct (s : Searcher) (q : List Nat)
    (equateIl tryptic : Bool) (maxM : Nat)
    (hNodup : s.saVals.Nodup)
    (hva : ∀ v ∈ s.saVals, v < s.text.length ∧ v % s.sampleRate = 0) :
    (resultList (s.searchMatchingSuffixes q maxM equateIl tryptic)).Nodup ∧
      ∀ p ∈ resultList (s.searchMatchingSuffixes q maxM equateIl tryptic),
        p < s.text.length :=
  outerLoopF_c10 s q equateIl tryptic maxM hNodup hva s.sampleRate 0 []
    List.nodup_nil (by simp)

/-! ## Cap (`max_matches`) behaviour -/

theorem innerLoopF_cap (s : Searcher) (q : List Nat) (equateIl tryptic : Bool)
    (maxM skip : Nat) (ilCur : List Nat) (hiB : Nat) :
    ∀ (fuel saIndex : Nat) (acc : List Nat),
      acc.length < max maxM 1 →
      (∀ l, innerLoopF s q maxM equateIl tryptic skip ilCur hiB fuel saIndex acc =
          Sum.inl l → l.length = max maxM 1) ∧
      (∀ l, innerLoopF s q maxM equateIl tryptic skip ilCur hiB fuel saIndex acc =
          Sum.inr l → l.length < max maxM 1) := by
  intro fuel
  induction fuel with
  | zero =>
    intro saIndex acc hlen
    exact ⟨fun l h => (by cases h), fun l h => (by cases h; exact hlen)⟩
  | succ fuel ih =>
    intro saIndex acc hlen
    by_cases hidx : saIndex < hiB
    · by_cases hskv : skip ≤ saGet s saIndex
      · by_cases hkeep : keepCandidate s q equateIl tryptic skip ilCur (saGet s saIndex) = true
        · by_cases hcap : maxM ≤ acc.length + 1
          · have hstep : innerLoopF s q maxM equateIl tryptic skip ilCur hiB
                (fuel + 1) saIndex acc = Sum.inl (acc ++ [saGet s saIndex - skip]) := by
              simp [innerLoopF, hidx, hskv, hkeep, hcap]
            rw [hstep]
            refine ⟨fun l h => ?_, fun l h => by cases h⟩
            cases h
            simp only [List.length_append, List.length_cons, List.length_nil]
            omega
          · have hstep : innerLoopF s q maxM equateIl tryptic skip ilCur hiB
                (fuel + 1) saIndex acc =
                innerLoopF s q maxM equateIl tryptic skip ilCur hiB fuel (saIndex + 1)
                  (acc ++ [saGet s saIndex - skip]) := by
              simp [innerLoopF, hidx, hskv, hkeep, hcap]
            rw [hstep]
            exact ih (saIndex + 1) _ (by simp; omega)
        · have hstep : innerLoopF s q maxM equateIl tryptic skip ilCur hiB
              (fuel + 1) saIndex acc =
              innerLoopF s q maxM equateIl tryptic skip ilCur hiB fuel (saIndex + 1) acc := by
            simp [innerLoopF, hidx, hskv, hkeep]
          rw [hstep]
          exact ih (saIndex + 1) acc hlen
      · have hstep : innerLoopF s q maxM equateIl tryptic skip ilCur hiB
            (fuel + 1) saIndex acc =
            innerLoopF s q maxM equateIl tryptic skip ilCur hiB fuel (saIndex + 1) acc := by
          simp [innerLoopF, hidx, hskv]
        rw [hstep]
        exact ih (saIndex + 1) acc hlen
    · have hstep : innerLoopF s q maxM equateIl tryptic skip ilCur hiB
          (fuel + 1) saIndex acc = Sum.inr acc := by
        simp [innerLoopF, hidx]
      rw [hstep]
      exact ⟨fun l h => (by cases h), fun l h => (by cases h; exact hlen)⟩

theorem outerLoopF_cap (s : Searcher) (q : List Nat) (equateIl tryptic : Bool)
    (maxM : Nat) :
    ∀ (fuel skip : Nat) (acc : List Nat),
      acc.length < max maxM 1 →
      ∀ l, outerLoopF s q maxM equateIl tryptic fuel skip acc =
          SearchAllSuffixesResult.MaxMatches l → l.length = max maxM 1 := by
  intro fuel
  induction fuel with
  | zero =>
    intro skip acc _ l h
    simp only [outerLoopF] at h
    split at h <;> cases h
  | succ fuel ih =>
    intro skip acc hlen l h
    by_cases hlt : skip < s.sampleRate
    · rcases hsbeq : s.searchBounds (q.drop skip) with _ | ⟨lo, hi⟩
      · rw [show outerLoopF s q maxM equateIl tryptic (fuel + 1) skip acc =
            outerLoopF s q maxM equateIl tryptic fuel (skip + 1) acc by
          simp only [outerLoopF, if_pos hlt, hsbeq]] at h
        exact ih (skip + 1) acc hlen l h
      · obtain ⟨hinl, hinr⟩ := innerLoopF_cap s q equateIl tryptic maxM skip
          ((ilLocations q).dropWhile fun loc => decide (loc < skip)) hi hi lo acc hlen
        rcases hres : innerLoopF s q maxM equateIl tryptic skip
            ((ilLocations q).dropWhile fun loc => decide (loc < skip)) hi hi lo acc with
          capped | acc'
        · rw [show outerLoopF s q maxM equateIl tryptic (fuel + 1) skip acc =
              SearchAllSuffixesResult.MaxMatches capped by
            simp only [outerLoopF, if_pos hlt, hsbeq, hres]] at h
          cases h
          exact hinl l hres
        · rw [show outerLoopF s q maxM equateIl tryptic (fuel + 1) skip acc =
              outerLoopF s q maxM equateIl tryptic fuel (skip + 1) acc' by
            simp only [outerLoopF, if_pos hlt, hsbeq, hres]] at h
          exact ih (skip + 1) acc' (hinr acc' hres) l h
    · rw [show outerLoopF s q maxM equateIl tryptic (fuel + 1) skip acc =
          (if acc.isEmpty then SearchAllSuffixesResult.NoMatches
           else SearchAllSuffixesResult.SearchResult acc) by
        simp only [outerLoopF, if_neg hlt]] at h
      split at h <;> cases h

theorem searchMatchingSuffixes_cap (s : Searcher) (q : List Nat)
    (equateIl tryptic : Bool) (maxM : Nat) (l : List Nat)
    (h : s.searchMatchingSuffixes q maxM equateIl tryptic =
      SearchAllSuffixesResult.MaxMatches l) :
    l.length = max maxM 1 :=
  outerLoopF_cap s q equateIl tryptic maxM s.sampleRate 0 [] (by simp) l h

/-! ## Concrete searchers used as witnesses and counterexamples -/

/-- The text `"AILV-AILK$"` as byte codes. -/
def exText : List Nat := [65, 73, 76, 86, 45, 65, 73, 76, 75, 36]

/-- Sample-rate-2 sparse suffix array of `exText`, I≡L-sorted. -/
def exS2 : Searcher := ⟨[4, 0, 6, 2, 8], 2, exText⟩

/-- Dense (sample rate 1) suffix array of `exText`, I≡L-sorted. -/
def exS1 : Searcher := ⟨[9, 4, 5, 0, 6, 1, 7, 2, 8, 3], 1, exText⟩

/-- The text `"A$"` with its dense suffix array. -/
def capS : Searcher := ⟨[1, 0], 1, [65, 36]⟩

/-- The text `"PAA-AAKPKAPAA$"` with its dense I≡L-sorted suffix array. -/
def trS : Searcher :=
  ⟨[13, 3, 12, 2, 11, 1, 4, 5, 9, 8, 6, 10, 0, 7], 1,
    [80, 65, 65, 45, 65, 65, 75, 80, 75, 65, 80, 65, 65, 36]⟩

/-! ## Claim theorems for the searcher -/

/-- C1: over an I≡L-sorted sample-rate-`s` suffix array of a
`$`-terminated text (the array holding exactly the in-range multiples of
the sample rate), for a query over the canonical amino acids with
`|q| ≥ s`, `search_matching_suffixes(q, usize::MAX, equate_il,
tryptic = false)` returns exactly the offsets at which `q` occurs in the
text, character equality being I≡L-tolerant iff `equate_il` — in
particular, with `equate_il = false` equality is literal, also at I/L
positions. -/
theorem c1_search_returns_exactly_occurrences (s : Searcher) (q : List Nat)
    (equateIl : Bool)
    (hsorted : Sorted s) (hterm : TermText s)
    (hqcanon : ∀ c ∈ q, isCanonAA c)
    (hNodup : s.saVals.Nodup)
    (hrange : ∀ v ∈ s.saVals, v < s.text.length ∧ v % s.sampleRate = 0)
    (hcomplete : ∀ v, v < s.text.length → v % s.sampleRate = 0 → v ∈ s.saVals)
    (hlen : s.sampleRate ≤ q.length)
    (hsr0 : 0 < s.sampleRate)
    (hN : s.text.length < USIZE_MAX) :
    ∀ p, p ∈ resultList (s.searchMatchingSuffixes q USIZE_MAX equateIl false) ↔
      occursAt s.text q equateIl p := by
  have hva : ∀ v, v ∈ s.saVals ↔ (v < s.text.length ∧ v % s.sampleRate = 0) :=
    fun v => ⟨fun h => hrange v h, fun ⟨h1, h2⟩ => hcomplete v h1 h2⟩
  obtain ⟨accF, heq, hnd, hmem⟩ :=
    searchMatchingSuffixes_exact s q equateIl USIZE_MAX hsorted hterm hqcanon hNodup
      hva hlen hsr0 hN
  intro p
  rw [resultList_of_exact heq]
  exact hmem p

theorem c1_witness :
    (6 ∈ resultList (exS2.searchMatchingSuffixes [73, 76] USIZE_MAX true false) ↔
      occursAt exS2.text [73, 76] true 6) :=
  c1_search_returns_exactly_occurrences exS2 [73, 76] true (by decide) (by decide)
    (by decide) (by decide) (by decide) (by decide) (by decide) (by decide)
    (by decide) 6

/-- C2: for a sorted suffix array and a non-empty terminator-free query,
`search_bounds` returns `NoMatches` exactly when no suffix has the query
as an I≡L prefix, and otherwise a half-open interval `[lo, hi)` holding
exactly the SA indices whose suffix has the query as an I≡L prefix. -/
theorem c2_search_bounds_interval (s : Searcher) (q : List Nat)
    (hsorted : Sorted s) (hrange : InRange s) (hterm : TermText s)
    (hcanon : NoTermQ q) (hq : q ≠ []) :
    (s.searchBounds q = BoundSearchResult.NoMatches ↔
      ∀ i, i < s.saVals.length → ¬ qPrefixAt s q i) ∧
    ∀ lo hi, s.searchBounds q = BoundSearchResult.SearchResult (lo, hi) →
      hi ≤ s.saVals.length ∧
      ∀ i, i < s.saVals.length → ((lo ≤ i ∧ i < hi) ↔ qPrefixAt s q i) :=
  searchBounds_spec s q hsorted hrange hterm hcanon hq

theorem c2_witness :
    (exS2.searchBounds [73, 76] = BoundSearchResult.NoMatches ↔
      ∀ i, i < exS2.saVals.length → ¬ qPrefixAt exS2 [73, 76] i) ∧
    ∀ lo hi, exS2.searchBounds [73, 76] = BoundSearchResult.SearchResult (lo, hi) →
      hi ≤ exS2.saVals.length ∧
      ∀ i, i < exS2.saVals.length →
        ((lo ≤ i ∧ i < hi) ↔ qPrefixAt exS2 [73, 76] i) :=
  c2_search_bounds_interval exS2 [73, 76] (by decide) (by decide) (by decide)
    (by decide) (by decide)

/-- C4: a peptide strictly shorter than the sample rate is answered by
`search_proteins_for_peptide` with the value-typed no-match result
(`None`), whatever its content. -/
theorem c4_short_peptide_reports_no_match (s : Searcher) (peptide : List Nat)
    (cutoff : Nat) (equalizeIAndL : Bool)
    (h : peptide.length < s.sampleRate) :
    searchProteinsForPeptide s peptide cutoff equalizeIAndL = none := by
  have hlen : ((stripNewline peptide).map toUpperByte).length < s.sampleRate := by
    simp only [List.length_map, stripNewline]
    split
    · simp only [List.length_dropLast]
      omega
    · omega
  unfold searchProteinsForPeptide
  simp only [if_pos hlen]

theorem c4_witness : searchProteinsForPeptide exS2 [65] 5 false = none :=
  c4_short_peptide_reports_no_match exS2 [65] 5 false (by decide)

/-- C10: for a suffix array whose values are in-range multiples of the
sample rate, with no duplicate entries, the offsets returned by
`search_matching_suffixes` are pairwise distinct and all within the
text, for every cap and flag combination: an occurrence at `p` is
reachable from exactly the one shift `(s - p % s) % s`. -/
theorem c10_offsets_distinct_in_range (s : Searcher) (q : List Nat)
    (equateIl tryptic : Bool) (maxM : Nat)
    (hNodup : s.saVals.Nodup)
    (hrange : ∀ v ∈ s.saVals, v < s.text.length ∧ v % s.sampleRate = 0) :
    (resultList (s.searchMatchingSuffixes q maxM equateIl tryptic)).Nodup ∧
      ∀ p ∈ resultList (s.searchMatchingSuffixes q maxM equateIl tryptic),
        p < s.text.length :=
  searchMatchingSuffixes_distinct s q equateIl tryptic maxM hNodup hrange

theorem c10_witness :
    (resultList (exS2.searchMatchingSuffixes [73, 76] 3 true false)).Nodup ∧
      ∀ p ∈ resultList (exS2.searchMatchingSuffixes [73, 76] 3 true false),
        p < exS2.text.length :=
  c10_offsets_distinct_in_range exS2 [73, 76] true false 3 (by decide) (by decide)

/-- C3 counterexample: on the text `"A$"` with query `"A"` (which has one
occurrence) and `max_matches = 0`, the search returns `MaxMatches [0]` —
the capped vector carries one offset; it is not the empty vector the
claim announces. -/
theorem c3_counterexample_cap_zero_not_empty :
    capS.searchMatchingSuffixes [65] 0 false false =
      SearchAllSuffixesResult.MaxMatches [0] := by decide

/-- C3 (amended): reaching the cap stops the search at once with the
`MaxMatches` variant, and the returned vector holds exactly
`max max_matches 1` offsets: the matching suffix is pushed before the cap
test, so a cap of 0 yields one offset rather than an empty vector. -/
theorem c3_cap_stops_with_full_vector (s : Searcher) (q : List Nat)
    (equateIl tryptic : Bool) (maxM : Nat) (l : List Nat)
    (h : s.searchMatchingSuffixes q maxM equateIl tryptic =
      SearchAllSuffixesResult.MaxMatches l) :
    l.length = max maxM 1 :=
  searchMatchingSuffixes_cap s q equateIl tryptic maxM l h

theorem c3_witness : ([0] : List Nat).length = max 0 1 :=
  c3_cap_stops_with_full_vector capS [65] false false 0 [0] (by decide)

/-- C5: with `tryptic = true` a candidate match occupying the text
interval `[start, end)` (where `start = suffix - skip` and
`end = suffix + |q| - skip`) is kept exactly when it passes the
non-tryptic checks and both tryptic side conditions — start side:
`start = 0`, or `text[start-1] = '-'`, or (`text[start-1] ∈ {K, R}` and
`text[start] ≠ P`); end side: `text[end] ∈ {'$', '-'}`, or
(`text[end-1] ∈ {K, R}` and `text[end] ≠ P`) — and a candidate failing
the filter leaves the accumulator untouched, so it does not count
toward `max_matches`. -/
theorem c5_tryptic_filter (s : Searcher) (q : List Nat) (equateIl : Bool)
    (skip : Nat) (ilCur : List Nat) :
    (∀ v, keepCandidate s q equateIl true skip ilCur v = true ↔
      (keepCandidate s q equateIl false skip ilCur v = true ∧
        (v - skip = 0 ∨ tGet s.text (v - skip - 1) = SEPARATION_CHARACTER ∨
          ((tGet s.text (v - skip - 1) = charK ∨ tGet s.text (v - skip - 1) = charR) ∧
            tGet s.text (v - skip) ≠ charP)) ∧
        (tGet s.text (v + q.length - skip) = TERMINATION_CHARACTER ∨
          tGet s.text (v + q.length - skip) = SEPARATION_CHARACTER ∨
          ((tGet s.text (v + q.length - skip - 1) = charK ∨
              tGet s.text (v + q.length - skip - 1) = charR) ∧
            tGet s.text (v + q.length - skip) ≠ charP)))) ∧
    ∀ (maxM hiB fuel saIndex : Nat) (acc : List Nat),
      saIndex < hiB → skip ≤ saGet s saIndex →
      keepCandidate s q equateIl true skip ilCur (saGet s saIndex) = false →
      innerLoopF s q maxM equateIl true skip ilCur hiB (fuel + 1) saIndex acc =
        innerLoopF s q maxM equateIl true skip ilCur hiB fuel (saIndex + 1) acc := by
  constructor
  · intro v
    simp only [keepCandidate, Searcher.checkStartOfProtein,
      Searcher.checkEndOfProtein, Searcher.checkTrypticCut, Bool.not_true,
      Bool.false_or, Bool.not_false, Bool.true_or, Bool.and_true,
      Bool.and_eq_true, Bool.or_eq_true_iff, beq_iff_eq, Bool.not_eq_true',
      beq_eq_false_iff_ne, ne_eq]
    tauto
  · intro maxM hiB fuel saIndex acc hidx hskv hkeep
    simp [innerLoopF, hidx, hskv, hkeep]

/-! ## The `BitArray` (`bitarray/src/lib.rs`) -/

/-- Release-mode `<<` on a `u64`: the shift amount is masked to 6 bits
and the result wraps at 64 bits. -/
def shl64 (x n : Nat) : Nat := (x <<< (n % 64)) % 2 ^ 64

/-- Release-mode `>>` on a `u64`. -/
def shr64 (x n : Nat) : Nat := x >>> (n % 64)

/-- Bitwise `!` on a `u64`. -/
def not64 (x : Nat) : Nat := x ^^^ (2 ^ 64 - 1)

/-- `BitArray` (lines 14–23): `data` as a list of `u64` words. -/
structure BitArray where
  data : List Nat
  mask : Nat
  len : Nat
  bitsPerValue : Nat
deriving DecidableEq

/-- `BitArray::with_capacity` (lines 36–44). -/
def BitArray.withCapacity (capacity bitsPerValue : Nat) : BitArray :=
  let extra := if capacity * bitsPerValue % 64 == 0 then 0 else 1
  { data := List.replicate (capacity * bitsPerValue / 64 + extra) 0
    mask := shl64 1 bitsPerValue - 1
    len := capacity
    bitsPerValue := bitsPerValue }

/-- `BitArray::get` (lines 55–80). -/
def BitArray.get (ba : BitArray) (index : Nat) : Nat :=
  let startBlock := index * ba.bitsPerValue / 64
  let startBlockOffset := index * ba.bitsPerValue % 64
  if startBlockOffset + ba.bitsPerValue ≤ 64 then
    shr64 (ba.data.getD startBlock 0) (64 - startBlockOffset - ba.bitsPerValue)
      &&& ba.mask
  else
    let endBlock := (index + 1) * ba.bitsPerValue / 64
    let endBlockOffset := (index + 1) * ba.bitsPerValue % 64
    let a := shl64 (ba.data.getD startBlock 0) endBlockOffset
    let b := shr64 (ba.data.getD endBlock 0) (64 - endBlockOffset)
    (a ||| b) &&& ba.mask

/-- `BitArray::set` (lines 88–114); in the spanning branch the end block
is read after the start block was written, as in the source (the two
indices differ there). -/
def BitArray.set (ba : BitArray) (index value : Nat) : BitArray :=
  let startBlock := index * ba.bitsPerValue / 64
  let startBlockOffset := index * ba.bitsPerValue % 64
  if startBlockOffset + ba.bitsPerValue ≤ 64 then
    let w0 := ba.data.getD startBlock 0
    let w1 := w0 &&& not64 (shl64 ba.mask (64 - startBlockOffset - ba.bitsPerValue))
    let w2 := w1 ||| shl64 value (64 - startBlockOffset - ba.bitsPerValue)
    { ba with data := ba.data.set startBlock w2 }
  else
    let endBlock := (index + 1) * ba.bitsPerValue / 64
    let endBlockOffset := (index + 1) * ba.bitsPerValue % 64
    let s0 := ba.data.getD startBlock 0
    let s1 := s0 &&& not64 (shr64 ba.mask startBlockOffset)
    let s2 := s1 ||| shr64 value endBlockOffset
    let d1 := ba.data.set startBlock s2
    let e0 := d1.getD endBlock 0
    let e1 := e0 &&& not64 (shl64 ba.mask (64 - endBlockOffset))
    let e2 := e1 ||| shl64 value (64 - endBlockOffset)
    { ba with data := d1.set endBlock e2 }

theorem getD_set_self {l : List Nat} {n : Nat} (a : Nat) (h : n < l.length) :
    (l.set n a).getD n 0 = a := by
  have hn : n < (l.set n a).length := by simpa using h
  rw [List.getD_eq_getElem _ _ hn]
  exact List.getElem_set_self _

theorem getD_set_ne (l : List Nat) (m n a : Nat) (h : m ≠ n) :
    (l.set m a).getD n 0 = l.getD n 0 := by
  rcases Nat.lt_or_ge n l.length with hn | hn
  · rw [List.getD_eq_getElem _ _ (by simpa using hn), List.getD_eq_getElem _ _ hn]
    exact List.getElem_set_ne h _
  · rw [List.getD_eq_default _ _ (by simpa using hn), List.getD_eq_default _ _ hn]

theorem double_set_read_fst (d : List Nat) (m n a c : Nat) (hm : m < d.length)
    (hmn : n ≠ m) : ((d.set m a).set n c).getD m 0 = a := by
  rw [getD_set_ne _ _ _ _ hmn, getD_set_self _ hm]

theorem double_set_read_snd (d : List Nat) (m n a c : Nat) (hn : n < d.length) :
    ((d.set m a).set n c).getD n 0 = c :=
  getD_set_self _ (by simpa using hn)

/-- One `set`-then-`get` round trip within a single word, as pure
64-bit arithmetic. -/
theorem set_get_single (w v b off : Nat) (hb1 : 1 ≤ b) (hbo : off + b ≤ 64) :
    shr64 ((w &&& not64 (shl64 (2 ^ b - 1) (64 - off - b))) |||
      shl64 v (64 - off - b)) (64 - off - b) &&& (2 ^ b - 1) = v % 2 ^ b := by
  apply Nat.eq_of_testBit_eq
  intro j
  have hsh : (64 - off - b) % 64 = 64 - off - b := Nat.mod_eq_of_lt (by omega)
  simp only [shr64, shl64, not64, hsh, Nat.testBit_land, Nat.testBit_lor,
    Nat.testBit_xor, Nat.testBit_mod_two_pow, Nat.testBit_shiftLeft,
    Nat.testBit_shiftRight, Nat.testBit_two_pow_sub_one, ge_iff_le]
  by_cases hj : j < b
  · have h1 : 64 - off - b + j < 64 := by omega
    have h2 : 64 - off - b ≤ 64 - off - b + j := by omega
    have h3 : 64 - off - b + j - (64 - off - b) = j := by omega
    simp [h1, h2, h3, hj]
  · simp [hj]

/-- One `set`-then-`get` round trip across a word boundary, as pure
64-bit arithmetic; the start word's field bits must be clear, since this
branch of `set` shifts its clear mask by `start_block_offset` where the
field addressing uses `end_block_offset`, and so under-clears. -/
theorem set_get_spanning (ws we v b off : Nat) (hb : b ≤ 63) (hoff : off < 64)
    (hsp : 64 < off + b) (hwe : we < 2 ^ 64)
    (hclean : ws % 2 ^ (64 - off) = 0) :
    (shl64 ((ws &&& not64 (shr64 (2 ^ b - 1) off)) ||| shr64 v (off + b - 64))
        (off + b - 64) |||
      shr64 ((we &&& not64 (shl64 (2 ^ b - 1) (64 - (off + b - 64)))) |||
        shl64 v (64 - (off + b - 64))) (64 - (off + b - 64)))
      &&& (2 ^ b - 1) = v % 2 ^ b := by
  have hws : ∀ k, k < 64 - off → ws.testBit k = false := by
    intro k hk
    have h0 : (ws % 2 ^ (64 - off)).testBit k = false := by
      rw [hclean]
      exact Nat.zero_testBit k
    rw [Nat.testBit_mod_two_pow] at h0
    simpa [hk] using h0
  have hwe' : ∀ p, 64 ≤ p → we.testBit p = false := by
    intro p hp
    exact Nat.testBit_lt_two_pow
      (lt_of_lt_of_le hwe (Nat.pow_le_pow_right (by norm_num) hp))
  apply Nat.eq_of_testBit_eq
  intro j
  have heo1 : 1 ≤ off + b - 64 := by omega
  have heo2 : off + b - 64 ≤ 62 := by omega
  have hm1 : (off + b - 64) % 64 = off + b - 64 := Nat.mod_eq_of_lt (by omega)
  have hm2 : (64 - (off + b - 64)) % 64 = 64 - (off + b - 64) :=
    Nat.mod_eq_of_lt (by omega)
  have hoffm : off % 64 = off := Nat.mod_eq_of_lt hoff
  simp only [shr64, shl64, not64, hm1, hm2, hoffm, Nat.testBit_land,
    Nat.testBit_lor, Nat.testBit_xor, Nat.testBit_mod_two_pow,
    Nat.testBit_shiftLeft, Nat.testBit_shiftRight,
    Nat.testBit_two_pow_sub_one, ge_iff_le]
  by_cases hj : j < b
  · by_cases hje : j < off + b - 64
    · have h1 : ¬ (off + b - 64 ≤ j) := by omega
      have h2 : 64 - (off + b - 64) + j < 64 := by omega
      have h3 : 64 - (off + b - 64) ≤ 64 - (off + b - 64) + j := by omega
      have h4 : 64 - (off + b - 64) + j - (64 - (off + b - 64)) = j := by omega
      simp [h1, h2, h3, h4, hj]
    · have h1 : off + b - 64 ≤ j := by omega
      have hwsk : ws.testBit (j - (off + b - 64)) = false := hws _ (by omega)
      have h5 : ¬ (64 - (off + b - 64) + j < 64) := by omega
      have h6 : we.testBit (64 - (off + b - 64) + j) = false := hwe' _ (by omega)
      have h7 : off + b - 64 + (j - (off + b - 64)) = j := by omega
      have h8 : j < 64 := by omega
      simp [h1, hj, hwsk, h5, h6, h7, h8]
  · simp [hj]

/-- C6 counterexample: the claim fails twice over.  For `B = 40` the
field of index 1 spans two words, and `set` shifts its clear mask by
`start_block_offset` instead of `end_block_offset`, so it under-clears:
after `set 1 (2^40 - 1)` then `set 1 0`, `get 1` returns `0xFFFFFF0000`,
not `0`.  For `B = 64` the mask `(1 << 64) - 1` wraps to `0` (release
shift semantics), so `get` always returns `0`. -/
theorem c6_counterexample :
    (((BitArray.withCapacity 2 40).set 1 (2 ^ 40 - 1)).set 1 0).get 1 ≠
        0 % 2 ^ 40 ∧
      ((BitArray.withCapacity 1 64).set 0 5).get 0 ≠ 5 % 2 ^ 64 := by
  constructor
  · decide
  · decide

/-- C6 (amended): for a value width `1 ≤ B ≤ 63`, a block index within
the buffer, `u64` words, and a start word whose low `64 - offset` bits
are clear whenever the field spans two words (e.g. on a freshly
allocated or cleared buffer), `set i v` then `get i` returns
`v mod 2^B`; with the field inside one word the round trip holds for
arbitrary prior contents.  The claim's `B = 64` fails (the mask wraps to
`0`), and in the spanning case `set` under-clears, so arbitrary prior
contents are not restored over. -/
theorem c6_set_get_field (ba : BitArray) (i v : Nat)
    (hb1 : 1 ≤ ba.bitsPerValue) (hb2 : ba.bitsPerValue ≤ 63)
    (hmask : ba.mask = 2 ^ ba.bitsPerValue - 1)
    (hwords : ∀ w ∈ ba.data, w < 2 ^ 64)
    (hblocks : ((i + 1) * ba.bitsPerValue - 1) / 64 < ba.data.length)
    (hclean : i * ba.bitsPerValue % 64 + ba.bitsPerValue ≤ 64 ∨
      ba.data.getD (i * ba.bitsPerValue / 64) 0 %
        2 ^ (64 - i * ba.bitsPerValue % 64) = 0) :
    (ba.set i v).get i = v % 2 ^ ba.bitsPerValue := by
  have hexp : (i + 1) * ba.bitsPerValue = i * ba.bitsPerValue + ba.bitsPerValue := by
    ring
  have hoff : i * ba.bitsPerValue % 64 < 64 := Nat.mod_lt _ (by omega)
  by_cases hsingle : i * ba.bitsPerValue % 64 + ba.bitsPerValue ≤ 64
  · have hsb : i * ba.bitsPerValue / 64 < ba.data.length := by
      have h2 : i * ba.bitsPerValue / 64 ≤ ((i + 1) * ba.bitsPerValue - 1) / 64 :=
        Nat.div_le_div_right (by omega)
      omega
    unfold BitArray.set
    dsimp only
    rw [if_pos hsingle]
    unfold BitArray.get
    dsimp only
    rw [if_pos hsingle]
    rw [getD_set_self _ hsb, hmask]
    exact set_get_single _ v ba.bitsPerValue (i * ba.bitsPerValue % 64) hb1 hsingle
  · have hsp : 64 < i * ba.bitsPerValue % 64 + ba.bitsPerValue := by omega
    have heo : (i + 1) * ba.bitsPerValue % 64 =
        i * ba.bitsPerValue % 64 + ba.bitsPerValue - 64 := by
      omega
    have heb_lt : (i + 1) * ba.bitsPerValue / 64 < ba.data.length := by omega
    have hsb : i * ba.bitsPerValue / 64 < ba.data.length := by omega
    have hne : i * ba.bitsPerValue / 64 ≠ (i + 1) * ba.bitsPerValue / 64 := by omega
    have hwe : ba.data.getD ((i + 1) * ba.bitsPerValue / 64) 0 < 2 ^ 64 :=
      hwords _ (getD_mem heb_lt)
    have hcl : ba.data.getD (i * ba.bitsPerValue / 64) 0 %
        2 ^ (64 - i * ba.bitsPerValue % 64) = 0 := by
      rcases hclean with h | h
      · omega
      · exact h
    unfold BitArray.set
    dsimp only
    rw [if_neg hsingle]
    unfold BitArray.get
    dsimp only
    rw [if_neg hsingle]
    rw [getD_set_ne ba.data _ _ _ hne]
    rw [double_set_read_fst ba.data _ _ _ _ hsb (by omega)]
    rw [double_set_read_snd ba.data _ _ _ _ heb_lt]
    rw [hmask, heo]
    exact set_get_spanning _ _ v ba.bitsPerValue (i * ba.bitsPerValue % 64)
      hb2 hoff hsp hwe hcl

/-- A 40-bit-value buffer with dirty words: the word holding field 1's
start keeps its field bits clear. -/
def bw6 : BitArray :=
  { data := [0xFFFFFFFFFF000000, 0x123456789ABCDEF0, 0]
    mask := 2 ^ 40 - 1
    len := 4
    bitsPerValue := 40 }

theorem c6_witness : (bw6.set 1 700000).get 1 = 700000 % 2 ^ bw6.bitsPerValue :=
  c6_set_get_field bw6 1 700000 (by decide) (by decide) (by decide) (by decide)
    (by decide) (Or.inr (by decide))

/-! ## Serialization (`bitarray/src/binary.rs`, `sa-compression/src/lib.rs`) -/

/-- `u64::to_le_bytes`. -/
def u64ToLeBytes (w : Nat) : List Nat :=
  (List.range 8).map fun k => w / 2 ^ (8 * k) % 256

/-- `u64::from_le_bytes`. -/
def u64FromLeBytes (bs : List Nat) : Nat :=
  (List.range 8).foldl (fun acc k => acc + bs.getD k 0 * 2 ^ (8 * k)) 0

/-- `BitArray::write_binary` (`binary.rs` lines 43–49): every word as
its little-endian bytes, in order. -/
def BitArray.writeBinary (ba : BitArray) : List Nat :=
  ba.data.flatMap u64ToLeBytes

/-- `BitArray::clear` (`lib.rs` lines 135–137). -/
def BitArray.clear (ba : BitArray) : BitArray :=
  { ba with data := List.replicate ba.data.length 0 }

/-- The `chunks_exact(8)` word decoding of one buffer's contents
(`read_binary`, lines 67–69): bytes beyond the last full 8-byte chunk
are dropped. -/
def chunksOf8 : Nat → List Nat → List Nat
  | 0, _ => []
  | fuel + 1, bs =>
    if 8 ≤ bs.length then u64FromLeBytes (bs.take 8) :: chunksOf8 fuel (bs.drop 8)
    else []

/-- The `fill_buffer` loop of `read_binary` (lines 65–75): each round
fills the 8 KiB buffer from the stream (entirely, unless the stream
ends), decodes its full 8-byte chunks, and stops after the first
not-completely-filled round. -/
def readBinaryRounds : Nat → List Nat → List Nat
  | 0, _ => []
  | fuel + 1, bs =>
    chunksOf8 1024 (bs.take 8192) ++
      (if bs.length < 8192 then [] else readBinaryRounds fuel (bs.drop 8192))

/-- `BitArray::read_binary` (`binary.rs` lines 60–77): clears `data` and
pushes every decoded word until the stream ends — there is no check
against the allocated capacity. -/
def BitArray.readBinary (ba : BitArray) (bytes : List Nat) : BitArray :=
  { ba with data := readBinaryRounds (bytes.length + 1) bytes }

/-- The `while b != 0` loop of `gcd` (`lib.rs` lines 215–223). -/
def gcdLoop : Nat → Nat → Nat → Nat
  | 0, a, _ => a
  | fuel + 1, a, b =>
    if b ≠ 0 then
      if b < a then gcdLoop fuel b (a % b) else gcdLoop fuel a (b % a)
    else a

/-- `gcd` (`lib.rs` lines 215–223). -/
def gcdRust (a b : Nat) : Nat := gcdLoop (a + b + 1) a b

/-- The `for (i, &value) in ...enumerate() { bitarray.set(i, value) }`
loops of `data_to_writer`. -/
def setAll : BitArray → Nat → List Nat → BitArray
  | ba, _, [] => ba
  | ba, i, v :: vs => setAll (ba.set i v) (i + 1) vs

/-- `chunks_exact(n)`: the full chunks and the remainder. -/
def chunksExactF : Nat → Nat → List Nat → List (List Nat) × List Nat
  | 0, _, l => ([], l)
  | fuel + 1, n, l =>
    if n ≤ l.length ∧ 0 < n then
      let cr := chunksExactF fuel n (l.drop n)
      (l.take n :: cr.1, cr.2)
    else ([], l)

/-- `data_to_writer` (`lib.rs` lines 154–203); values are taken as the
`u64` bit patterns of the stored `i64`s. -/
def dataToWriter (data : List Nat) (bitsPerValue maxCapacity : Nat) : List Nat :=
  let g := gcdRust bitsPerValue 64
  let capacity := max g (maxCapacity / g * g)
  if data.length ≤ capacity then
    (setAll (BitArray.withCapacity data.length bitsPerValue) 0 data).writeBinary
  else
    let cr := chunksExactF (data.length + 1) capacity data
    let start := BitArray.withCapacity capacity bitsPerValue
    let final := cr.1.foldl
      (fun acc chunk =>
        (acc.1 ++ (setAll acc.2 0 chunk).writeBinary, (setAll acc.2 0 chunk).clear))
      (([] : List Nat), start)
    final.1 ++ (setAll (BitArray.withCapacity cr.2.length bitsPerValue) 0 cr.2).writeBinary

/-- `dump_compressed_suffix_array` (`sa-compression/src/lib.rs` lines
21–48): one `bits_per_value` byte, one `sparseness_factor` byte, the
length as a little-endian `u64`, then the packed payload. -/
def dumpCompressedSuffixArray (sa : List Nat) (sparsenessFactor bitsPerValue : Nat) :
    List Nat :=
  bitsPerValue % 256 :: sparsenessFactor % 256 ::
    (u64ToLeBytes (sa.length % 2 ^ 64) ++ dataToWriter sa bitsPerValue (8 * 1024))

/-- `read_exact` on an in-memory byte stream: `none` is the `Err` of a
short read. -/
def readExact (n : Nat) (input : List Nat) : Option (List Nat × List Nat) :=
  if n ≤ input.length then some (input.take n, input.drop n) else none

/-- `load_compressed_suffix_array` (`sa-compression/src/lib.rs` lines
60–85): reads the sample rate byte and the 8 size bytes (failing on a
short read), then reads words until the stream ends.  The declared size
is only used to allocate; it is never checked against the payload. -/
def loadCompressedSuffixArray (bytes : List Nat) (bitsPerValue : Nat) :
    Option (Nat × BitArray) :=
  match readExact 1 bytes with
  | none => none
  | some (srb, rest) =>
    match readExact 8 rest with
    | none => none
    | some (szb, rest2) =>
      some (srb.getD 0 0,
        (BitArray.withCapacity (u64FromLeBytes szb) bitsPerValue).readBinary rest2)

/-- C7: dumping the values 1..10 at sparseness 1 and 8 bits per value
produces exactly the claimed 26 bytes — `bits_per_value`,
`sample_rate`, the length as a little-endian `u64`, then the packed
payload padded to whole words — and loading them back (the loader
starts after the `bits_per_value` byte) recovers sample rate 1 and the
values 1..10. -/
theorem c7_dump_layout_and_roundtrip :
    dumpCompressedSuffixArray [1, 2, 3, 4, 5, 6, 7, 8, 9, 10] 1 8 =
      [8, 1, 10, 0, 0, 0, 0, 0, 0, 0,
        8, 7, 6, 5, 4, 3, 2, 1, 0, 0, 0, 0, 0, 0, 10, 9] ∧
    (loadCompressedSuffixArray
        (List.drop 1 (dumpCompressedSuffixArray [1, 2, 3, 4, 5, 6, 7, 8, 9, 10] 1 8))
        8).map Prod.fst = some 1 ∧
    ∀ i, i < 10 →
      (loadCompressedSuffixArray
          (List.drop 1 (dumpCompressedSuffixArray [1, 2, 3, 4, 5, 6, 7, 8, 9, 10] 1 8))
          8).map (fun p => (p.2).get i) = some (i + 1) := by
  refine ⟨by decide, by decide, by decide⟩

/-- C8 counterexample: a stream declaring 10 entries whose payload ends
at once (no payload bytes at all) loads without any error — the claimed
`TruncatedPayload` failure does not exist. -/
theorem c8_counterexample_truncated_payload_loads :
    (loadCompressedSuffixArray [1, 10, 0, 0, 0, 0, 0, 0, 0] 8).isSome = true := by
  decide

/-- C8 (amended): a short read on a header field does fail — any stream
shorter than the 9 header bytes is refused — but a payload holding
fewer than the declared number of entries is not detected:
`read_binary` pushes words until the stream ends and no check against
the declared size follows, so the loader returns `Ok`. -/
theorem c8_short_header_fails (bytes : List Nat) (b : Nat)
    (h : bytes.length < 9) :
    loadCompressedSuffixArray bytes b = none := by
  unfold loadCompressedSuffixArray readExact
  rcases bytes with _ | ⟨b0, rest⟩
  · simp
  · have hrest : ¬ (8 ≤ rest.length) := by
      simp at h
      omega
    simp [hrest]

theorem c8_witness : loadCompressedSuffixArray [1, 0, 0] 8 = none :=
  c8_short_header_fails [1, 0, 0] 8 (by decide)

/-! ## The k-mer bounds caches (`sa-index/src/bounds_table.rs` and
`sa-index/src/bounds_cache.rs`) -/

/-- The amino-acid alphabet `"ACDEFGHIKLMNPQRSTVWY"` the caches are
built over. -/
def alphabetAA : List Nat :=
  [65, 67, 68, 69, 70, 71, 72, 73, 75, 76, 77, 78, 80, 81, 82, 83, 84, 86, 87, 89]

/-- The `ascii_array` of the mixed-base cache (`bounds_table.rs`, lines
13–18): letter ↦ alphabet position + 1, `0` reserved. -/
def asciiArrayT : List Nat :=
  alphabetAA.enum.foldl (fun arr p => arr.set p.2 (p.1 + 1)) (List.replicate 128 0)

/-- The mixed-base cache's base, `|Σ| + 1 = 21`. -/
def baseT : Nat := alphabetAA.length + 1

/-- `BoundsCache::<K>::kmer_to_index` (`bounds_table.rs`, lines 58–65). -/
def kmerToIndexT (kmer : List Nat) : Nat :=
  (kmer.reverse.enum.map fun p => asciiArrayT.getD p.2 0 * baseT ^ p.1).sum

/-- The digit-peeling loop of `BoundsCache::<K>::index_to_kmer`
(`bounds_table.rs`, lines 42–56): an early zero digit ends the k-mer. -/
def i2kLoopT : Nat → Nat → List Nat → List Nat
  | 0, _, kmer => kmer.reverse
  | fuel + 1, index, kmer =>
    let m := index % baseT
    if m = 0 then kmer.reverse
    else i2kLoopT fuel (index / baseT) (kmer ++ [alphabetAA.getD (m - 1) 0])

/-- `BoundsCache::<K>::index_to_kmer`. -/
def indexToKmerT (K index : Nat) : List Nat := i2kLoopT K index []

/-- The `ascii_array` of the offset-table cache (`bounds_cache.rs`,
lines 18–23): letter ↦ alphabet position. -/
def asciiArrayO : List Nat :=
  alphabetAA.enum.foldl (fun arr p => arr.set p.2 p.1) (List.replicate 128 0)

/-- The offset-table cache's base, `|Σ| = 20`. -/
def baseO : Nat := alphabetAA.length

/-- `powers_array` (`bounds_cache.rs`, lines 25–28). -/
def powersArrayO : List Nat := (List.range 10).map fun i => baseO ^ i

/-- `offsets_array` (`bounds_cache.rs`, lines 30–33). -/
def offsetsArrayO : List Nat :=
  (List.range' 2 8).foldl
    (fun arr i => arr.set i (arr.getD (i - 1) 0 + powersArrayO.getD (i - 1) 0))
    (List.replicate 10 0)

/-- `BoundsCache::kmer_to_index` (`bounds_cache.rs`, lines 88–99). -/
def kmerToIndexO (kmer : List Nat) : Nat :=
  if kmer.length = 1 then asciiArrayO.getD (kmer.getD 0 0) 0
  else
    (kmer.enum.map fun p =>
      (asciiArrayO.getD p.2 0 + 1) * powersArrayO.getD (kmer.length - p.1 - 1) 0).sum
      - 1

/-- The `while offsets_array[length + 1] <= index` scan of
`index_to_kmer` (`bounds_cache.rs`, lines 64–67): the guard reads
`offsets_array[length + 1]` first, so reaching `length + 1 = 10` is an
out-of-bounds panic, modelled as `none`. -/
def findLenO : Nat → Nat → Nat → Option Nat
  | 0, _, _ => none
  | fuel + 1, index, length =>
    if 10 ≤ length + 1 then none
    else if offsetsArrayO.getD (length + 1) 0 ≤ index then
      findLenO fuel index (length + 1)
    else some length

/-- The base-20 digit peeling of `index_to_kmer` (`bounds_cache.rs`,
lines 74–81): digit `i` is written at position `length - i - 1`. -/
def peelO : Nat → Nat → List Nat
  | 0, _ => []
  | l + 1, index => peelO l (index / baseO) ++ [alphabetAA.getD (index % baseO) 0]

/-- `BoundsCache::index_to_kmer` (`bounds_cache.rs`, lines 59–86);
`none` is the panic of the length scan. -/
def indexToKmerO (index : Nat) : Option (List Nat) :=
  if index < baseO then some [alphabetAA.getD index 0]
  else
    match findLenO 10 index 2 with
    | none => none
    | some length => some (peelO length (index - offsetsArrayO.getD length 0))

/-- Little-endian Horner evaluation of a digit list. -/
def hornerF (f : Nat → Nat) (b : Nat) : List Nat → Nat
  | [] => 0
  | c :: cs => f c + b * hornerF f b cs

theorem enumFrom_pow_sum (f : Nat → Nat) (b : Nat) :
    ∀ (l : List Nat) (n : Nat),
      ((List.enumFrom n l).map fun p => f p.2 * b ^ p.1).sum =
        b ^ n * hornerF f b l := by
  intro l
  induction l with
  | nil => intro n; simp [hornerF]
  | cons c cs ih =>
    intro n
    simp only [List.enumFrom_cons, List.map_cons, List.sum_cons, hornerF, ih (n + 1)]
    rw [pow_succ]
    ring

theorem hornerF_append (f : Nat → Nat) (b : Nat) (xs : List Nat) (c : Nat) :
    hornerF f b (xs ++ [c]) = hornerF f b xs + f c * b ^ xs.length := by
  induction xs with
  | nil => simp [hornerF]
  | cons x xs ih =>
    simp only [List.cons_append, hornerF, List.length_cons, List.append_eq]
    rw [ih, pow_succ]
    ring

theorem enum_msb_sum (f : Nat → Nat) (b L : Nat) :
    ∀ (l : List Nat) (n : Nat), n + l.length = L →
      ((List.enumFrom n l).map fun p => f p.2 * b ^ (L - p.1 - 1)).sum =
        hornerF f b l.reverse := by
  intro l
  induction l with
  | nil => intro n _; simp [hornerF]
  | cons c cs ih =>
    intro n hn
    simp only [List.enumFrom_cons, List.map_cons, List.sum_cons, List.reverse_cons]
    rw [ih (n + 1) (by simp only [List.length_cons] at hn; omega), hornerF_append]
    have hLn : L - n - 1 = cs.length := by
      simp only [List.length_cons] at hn
      omega
    rw [hLn, List.length_reverse]
    ring

theorem asciiT_bounds : ∀ c ∈ alphabetAA,
    1 ≤ asciiArrayT.getD c 0 ∧ asciiArrayT.getD c 0 ≤ 20 := by decide

theorem asciiT_char : ∀ c ∈ alphabetAA,
    alphabetAA.getD (asciiArrayT.getD c 0 - 1) 0 = c := by decide

theorem i2kLoopT_horner :
    ∀ (rev : List Nat) (fuel : Nat) (acc : List Nat),
      (∀ c ∈ rev, c ∈ alphabetAA) → rev.length ≤ fuel →
      i2kLoopT fuel (hornerF (fun c => asciiArrayT.getD c 0) baseT rev) acc =
        (acc ++ rev).reverse := by
  intro rev
  induction rev with
  | nil =>
    intro fuel acc _ _
    cases fuel with
    | zero => simp [i2kLoopT, hornerF]
    | succ f => simp [i2kLoopT, hornerF]
  | cons c cs ih =>
    intro fuel acc hmem hlen
    cases fuel with
    | zero => simp at hlen
    | succ f =>
      obtain ⟨h1, h2⟩ := asciiT_bounds c (hmem c (by simp))
      have hb : baseT = 21 := by decide
      have hm : (asciiArrayT.getD c 0 +
          baseT * hornerF (fun x => asciiArrayT.getD x 0) baseT cs) % baseT =
          asciiArrayT.getD c 0 := by
        rw [Nat.add_mul_mod_self_left, Nat.mod_eq_of_lt (by omega)]
      have hd : (asciiArrayT.getD c 0 +
          baseT * hornerF (fun x => asciiArrayT.getD x 0) baseT cs) / baseT =
          hornerF (fun x => asciiArrayT.getD x 0) baseT cs := by
        rw [Nat.add_mul_div_left _ _ (by omega : 0 < baseT),
          Nat.div_eq_of_lt (by omega)]
        omega
      simp only [hornerF, i2kLoopT, hm, hd]
      rw [if_neg (by omega)]
      rw [asciiT_char c (hmem c (by simp))]
      rw [ih f (acc ++ [c]) (fun x hx => hmem x (by simp [hx]))
        (by simp only [List.length_cons] at hlen; omega)]
      simp

theorem roundtripT (K : Nat) (w : List Nat)
    (hmem : ∀ c ∈ w, c ∈ alphabetAA) (hlen : w.length ≤ K) :
    indexToKmerT K (kmerToIndexT w) = w := by
  have hidx : kmerToIndexT w =
      hornerF (fun c => asciiArrayT.getD c 0) baseT w.reverse := by
    unfold kmerToIndexT
    rw [List.enum_eq_enumFrom,
      enumFrom_pow_sum (fun c => asciiArrayT.getD c 0) baseT w.reverse 0]
    simp
  rw [indexToKmerT, hidx,
    i2kLoopT_horner w.reverse K [] (fun c hc => hmem c (List.mem_reverse.mp hc))
      (by simpa using hlen)]
  simp

theorem asciiO_bounds : ∀ c ∈ alphabetAA, asciiArrayO.getD c 0 < 20 := by decide

theorem asciiO_char : ∀ c ∈ alphabetAA,
    alphabetAA.getD (asciiArrayO.getD c 0) 0 = c := by decide

/-- `1 + 20 + ... + 20^(n-1)`. -/
def repU : Nat → Nat
  | 0 => 0
  | n + 1 => 1 + 20 * repU n

theorem offsetsO_repU : ∀ L, 2 ≤ L → L ≤ 9 →
    offsetsArrayO.getD L 0 = repU L - 1 := by decide

theorem hornerF_add_one (f : Nat → Nat) (b : Nat) :
    ∀ l, hornerF (fun c => f c + 1) b l =
      hornerF f b l + hornerF (fun _ => 1) b l := by
  intro l
  induction l with
  | nil => simp [hornerF]
  | cons c cs ih =>
    simp only [hornerF, ih]
    ring

theorem hornerF_one : ∀ l : List Nat, hornerF (fun _ => 1) 20 l = repU l.length := by
  intro l
  induction l with
  | nil => simp [hornerF, repU]
  | cons c cs ih => simp [hornerF, repU, ih]

theorem hornerO_bounds : ∀ rev : List Nat, (∀ c ∈ rev, c ∈ alphabetAA) →
    repU rev.length ≤ hornerF (fun c => asciiArrayO.getD c 0 + 1) 20 rev ∧
    hornerF (fun c => asciiArrayO.getD c 0 + 1) 20 rev ≤ 20 * repU rev.length := by
  intro rev
  induction rev with
  | nil => intro _; simp [hornerF, repU]
  | cons c cs ih =>
    intro hmem
    obtain ⟨ihl, ihr⟩ := ih fun x hx => hmem x (by simp [hx])
    have hc := asciiO_bounds c (hmem c (by simp))
    simp only [hornerF, List.length_cons, repU]
    omega

theorem peelO_horner :
    ∀ (rev : List Nat), (∀ c ∈ rev, c ∈ alphabetAA) →
      peelO rev.length (hornerF (fun c => asciiArrayO.getD c 0) baseO rev) =
        rev.reverse := by
  intro rev
  induction rev with
  | nil => intro _; simp [peelO]
  | cons c cs ih =>
    intro hmem
    have hc := asciiO_bounds c (hmem c (by simp))
    have hb : baseO = 20 := by decide
    have hm : (asciiArrayO.getD c 0 +
        baseO * hornerF (fun x => asciiArrayO.getD x 0) baseO cs) % baseO =
        asciiArrayO.getD c 0 := by
      rw [Nat.add_mul_mod_self_left, Nat.mod_eq_of_lt (by omega)]
    have hd : (asciiArrayO.getD c 0 +
        baseO * hornerF (fun x => asciiArrayO.getD x 0) baseO cs) / baseO =
        hornerF (fun x => asciiArrayO.getD x 0) baseO cs := by
      rw [Nat.add_mul_div_left _ _ (by omega : 0 < baseO),
        Nat.div_eq_of_lt (by omega)]
      omega
    simp only [List.length_cons, peelO, hornerF, hm, hd, List.reverse_cons]
    rw [asciiO_char c (hmem c (by simp))]
    rw [ih fun x hx => hmem x (by simp [hx])]

theorem findLenO_spec (L index : Nat) (h2 : 2 ≤ L) (h8 : L ≤ 8)
    (hlo : offsetsArrayO.getD L 0 ≤ index)
    (hhi : index < offsetsArrayO.getD (L + 1) 0) :
    findLenO 10 index 2 = some L := by
  have hoff : offsetsArrayO =
      [0, 0, 20, 420, 8420, 168420, 3368420, 67368420, 1347368420, 26947368420] := by
    decide
  rw [hoff] at hlo hhi
  interval_cases L <;>
    · simp only [List.getD] at hlo hhi
      norm_num at hlo hhi
      simp only [findLenO, hoff]
      norm_num
      repeat first
        | rw [if_pos (by omega)]
        | rw [if_neg (by omega)]
      try first
        | rfl
        | (intro h; exact absurd h (by omega))

theorem repU_pos : ∀ L, 1 ≤ L → 1 ≤ repU L := by
  intro L hL
  cases L with
  | zero => omega
  | succ n =>
    simp only [repU]
    omega

theorem roundtripO (w : List Nat) (hmem : ∀ c ∈ w, c ∈ alphabetAA)
    (h1 : 1 ≤ w.length) (h8 : w.length ≤ 8) :
    indexToKmerO (kmerToIndexO w) = some w := by
  by_cases hone : w.length = 1
  · rcases w with _ | ⟨c, _ | ⟨d, t⟩⟩
    · simp at hone
    · have hcmem : c ∈ alphabetAA := hmem c (by simp)
      have hca := asciiO_bounds c hcmem
      have hcc := asciiO_char c hcmem
      have hb : baseO = 20 := by decide
      have hk : kmerToIndexO [c] = asciiArrayO.getD c 0 := by
        unfold kmerToIndexO
        rw [if_pos (show [c].length = 1 from rfl)]
        rfl
      rw [hk]
      unfold indexToKmerO
      rw [if_pos (by omega)]
      rw [hcc]
    · simp at hone
  · have h2 : 2 ≤ w.length := by omega
    have hV : kmerToIndexO w =
        hornerF (fun c => asciiArrayO.getD c 0 + 1) 20 w.reverse - 1 := by
      unfold kmerToIndexO
      rw [if_neg hone]
      have hcg : (w.enum.map fun p =>
          (asciiArrayO.getD p.2 0 + 1) * powersArrayO.getD (w.length - p.1 - 1) 0) =
          (w.enum.map fun p =>
            (asciiArrayO.getD p.2 0 + 1) * 20 ^ (w.length - p.1 - 1)) := by
        refine List.map_congr_left ?_
        intro p hp
        rw [List.enum_eq_enumFrom] at hp
        obtain ⟨-, hlt, -⟩ := List.mem_enumFrom hp
        have hj : w.length - p.1 - 1 < 10 := by omega
        have hpw : ∀ j, j < 10 → powersArrayO.getD j 0 = 20 ^ j := by decide
        rw [hpw _ hj]
      rw [hcg, List.enum_eq_enumFrom,
        enum_msb_sum (fun c => asciiArrayO.getD c 0 + 1) 20 w.length w 0 (by omega)]
    obtain ⟨hVlo, hVhi⟩ := hornerO_bounds w.reverse
      (fun c hc => hmem c (List.mem_reverse.mp hc))
    rw [List.length_reverse] at hVlo hVhi
    have hrep2 : 21 ≤ repU w.length := by
      have : repU w.length = 1 + 20 * repU (w.length - 1) := by
        cases hw : w.length with
        | zero => omega
        | succ n => simp [repU]
      have := repU_pos (w.length - 1) (by omega)
      omega
    have hoLo : offsetsArrayO.getD w.length 0 = repU w.length - 1 :=
      offsetsO_repU w.length h2 (by omega)
    have hoHi : offsetsArrayO.getD (w.length + 1) 0 = repU (w.length + 1) - 1 :=
      offsetsO_repU (w.length + 1) (by omega) (by omega)
    have hrepS : repU (w.length + 1) = 1 + 20 * repU w.length := by simp [repU]
    have hfind : findLenO 10 (kmerToIndexO w) 2 = some w.length := by
      refine findLenO_spec w.length (kmerToIndexO w) h2 h8 ?_ ?_
      · rw [hoLo, hV]
        omega
      · rw [hoHi, hV]
        omega
    have hnot20 : ¬ (kmerToIndexO w < baseO) := by
      have hb : baseO = 20 := by decide
      rw [hV]
      omega
    unfold indexToKmerO
    rw [if_neg hnot20, hfind]
    dsimp only
    have hidx' : kmerToIndexO w - offsetsArrayO.getD w.length 0 =
        hornerF (fun c => asciiArrayO.getD c 0) baseO w.reverse := by
      rw [hV, hoLo]
      have hsplit := hornerF_add_one (fun c => asciiArrayO.getD c 0) 20 w.reverse
      have hones := hornerF_one w.reverse
      rw [List.length_reverse] at hones
      have hb : baseO = 20 := by decide
      rw [hb]
      omega
    rw [hidx']
    have hpeel := peelO_horner w.reverse (fun c hc => hmem c (List.mem_reverse.mp hc))
    rw [List.length_reverse] at hpeel
    rw [hpeel, List.reverse_reverse]

/-- C9 counterexample: with the offset-table encoding, decoding the
index of the 9-mer `"AAAAAAAAA"` reads `offsets_array[10]`, out of the
array's 10 entries — the length scan panics (modelled as `none`) —
although `k = 9` passes the constructor's `assert!(k < 10)`. -/
theorem c9_counterexample_length9_panics :
    indexToKmerO (kmerToIndexO [65, 65, 65, 65, 65, 65, 65, 65, 65]) = none := by
  decide

/-- C9 (amended): the two k-mer index encodings are exact inverses on
their safe ranges — the mixed-base one for every k-mer of length at
most `K` over the amino-acid alphabet, the offset-table one for every
k-mer of length 1..8; for length-9 k-mers (allowed by the constructor's
`assert!(k < 10)`) the offset-table decoder's length scan reads
`offsets_array[10]` and panics. -/
theorem c9_kmer_roundtrips :
    (∀ (K : Nat) (w : List Nat), (∀ c ∈ w, c ∈ alphabetAA) → w.length ≤ K →
      indexToKmerT K (kmerToIndexT w) = w) ∧
    (∀ w : List Nat, (∀ c ∈ w, c ∈ alphabetAA) → 1 ≤ w.length → w.length ≤ 8 →
      indexToKmerO (kmerToIndexO w) = some w) :=
  ⟨roundtripT, roundtripO⟩

end UnipeptIndex
